import Mathlib

/-!
LizardFS command-line tools: shared helper functions.

A shallow embedding of `src/tools/tools_common_functions.cc`:
`print_number`, `my_get_number`, `bsd_basename`, `bsd_dirname` and
`dirname_inplace`, followed by theorems about them.

Conventions of the embedding.

* A C string is the list of the characters that stand before its terminating
  NUL.  Reading `str[i]` at or behind the end of the list gives NUL (`charAt`).
* `uint64_t` is `Nat` with an explicit `% 2 ^ 64` wherever the C arithmetic
  can wrap.
* `double` is IEEE-754 binary64 with round-to-nearest, ties-to-even (`Dbl`).
  Every finite binary64 number is a whole multiple of `2 ^ (-1074)`, so a
  finite magnitude is stored as that multiple, a natural number: `1.0` is
  `fin false (2 ^ 1074)`.
-/

namespace LizardTools

/-! ## Binary64 arithmetic -/

/-- A binary64 value: NaN, a signed infinity, or a signed finite number whose
magnitude is `mag * 2 ^ (-1074)`. -/
inductive Dbl where
  | nan : Dbl
  | inf (neg : Bool) : Dbl
  | fin (neg : Bool) (mag : Nat) : Dbl
  deriving DecidableEq, Repr

/-- The magnitude of `1.0`, counted in units of `2 ^ (-1074)`. -/
@[irreducible] def scale : Nat := 2 ^ 1074

/-- The magnitude of `2 ^ 1024`, the first one that no longer is finite. -/
@[irreducible] def huge : Nat := 2 ^ 2098

/-- The integer nearest to `p / q`, a tie going to the even neighbour. -/
def rne (p q : Nat) : Nat :=
  if 2 * (p % q) < q then p / q
  else if q < 2 * (p % q) then p / q + 1
  else if (p / q) % 2 = 0 then p / q
  else p / q + 1

/-- Counts how often `n` can be halved before it drops below 2. -/
def log2Loop : Nat → Nat → Nat → Nat
  | 0, _, acc => acc
  | fuel + 1, n, acc => if 2 ≤ n then log2Loop fuel (n / 2) (acc + 1) else acc

/-- The position of the leading bit of `n`: the largest `e` with
`2 ^ e ≤ n`, and 0 for `n = 0`. -/
def ilog2 (n : Nat) : Nat := log2Loop n n 0

/-- The multiple of `2 ^ k` nearest to `p / q` (ties to even), where `k` is
chosen so that at most 53 significant bits remain: the binary64 rounding of
the magnitude `p / q`. -/
def fl (p q : Nat) : Nat :=
  rne p (q * 2 ^ (ilog2 (p / q) - 52)) * 2 ^ (ilog2 (p / q) - 52)

/-- The binary64 value with sign `neg` nearest to the magnitude `p / q`;
a rounded magnitude of `2 ^ 1024` or more overflows to infinity. -/
def Dbl.rnd (neg : Bool) (p q : Nat) : Dbl :=
  if huge ≤ fl p q then Dbl.inf neg else Dbl.fin neg (fl p q)

/-- Conversion of an unsigned integer (and of an integer literal) to
`double`. -/
def Dbl.ofNat (n : Nat) : Dbl := Dbl.rnd false (n * scale) 1

/-- Binary64 division. -/
def Dbl.div : Dbl → Dbl → Dbl
  | Dbl.nan, _ => Dbl.nan
  | _, Dbl.nan => Dbl.nan
  | Dbl.inf _, Dbl.inf _ => Dbl.nan
  | Dbl.inf s, Dbl.fin t _ => Dbl.inf (xor s t)
  | Dbl.fin s _, Dbl.inf t => Dbl.fin (xor s t) 0
  | Dbl.fin s a, Dbl.fin t b =>
    if b = 0 then (if a = 0 then Dbl.nan else Dbl.inf (xor s t))
    else Dbl.rnd (xor s t) (a * scale) b

/-- Binary64 multiplication. -/
def Dbl.mul : Dbl → Dbl → Dbl
  | Dbl.nan, _ => Dbl.nan
  | _, Dbl.nan => Dbl.nan
  | Dbl.inf s, Dbl.inf t => Dbl.inf (xor s t)
  | Dbl.inf s, Dbl.fin t b => if b = 0 then Dbl.nan else Dbl.inf (xor s t)
  | Dbl.fin s a, Dbl.inf t => if a = 0 then Dbl.nan else Dbl.inf (xor s t)
  | Dbl.fin s a, Dbl.fin t b => Dbl.rnd (xor s t) (a * b) scale

/-- Binary64 addition. -/
def Dbl.add : Dbl → Dbl → Dbl
  | Dbl.nan, _ => Dbl.nan
  | _, Dbl.nan => Dbl.nan
  | Dbl.inf s, Dbl.inf t => if s = t then Dbl.inf s else Dbl.nan
  | Dbl.inf s, Dbl.fin _ _ => Dbl.inf s
  | Dbl.fin _ _, Dbl.inf t => Dbl.inf t
  | Dbl.fin s a, Dbl.fin t b =>
    if s = t then Dbl.rnd s (a + b) 1
    else if b < a then Dbl.rnd s (a - b) 1
    else if a < b then Dbl.rnd t (b - a) 1
    else Dbl.fin false 0

/-- The C library function `round`: the nearest integral value, a half going
away from zero. -/
def Dbl.round : Dbl → Dbl
  | Dbl.nan => Dbl.nan
  | Dbl.inf s => Dbl.inf s
  | Dbl.fin s a => Dbl.fin s ((2 * a + scale) / (2 * scale) * scale)

/-- The signed value of a finite binary64 number, in units of
`2 ^ (-1074)`. -/
def signed (neg : Bool) (mag : Nat) : Int :=
  if neg then -(mag : Int) else (mag : Int)

/-- The comparison `x > y` of two binary64 values; false when either is
NaN. -/
def Dbl.gt : Dbl → Dbl → Bool
  | Dbl.nan, _ => false
  | _, Dbl.nan => false
  | _, Dbl.inf false => false
  | Dbl.inf true, _ => false
  | Dbl.inf false, _ => true
  | _, Dbl.inf true => true
  | Dbl.fin s a, Dbl.fin t b => decide (signed t b < signed s a)

/-- Conversion of a `double` to `uint64_t`: the value truncated towards zero
when that is below `2 ^ 64`, and no defined result (`none`) otherwise. -/
def Dbl.toU64 : Dbl → Option Nat
  | Dbl.nan => none
  | Dbl.inf _ => none
  | Dbl.fin false a => if a / scale < 2 ^ 64 then some (a / scale) else none
  | Dbl.fin true a => if a / scale = 0 then some 0 else none

/-! ## Strings -/

/-- The terminating character of a C string. -/
def NUL : Char := Char.ofNat 0

/-- The character `str[i]` of the NUL-terminated string with characters
`str`. -/
def charAt (str : List Char) (i : Nat) : Char := str.getD i NUL

/-- The test `c >= '0' && c <= '9'`. -/
def isDigit (c : Char) : Bool := decide ('0'.toNat ≤ c.toNat) && decide (c.toNat ≤ '9'.toNat)

/-- The value `c - '0'` of a digit character. -/
def digitVal (c : Char) : Nat := c.toNat - '0'.toNat

/-! ## my_get_number -/

/-- The first loop of `my_get_number`: consumes leading digits into `val`
(a `uint64_t`), sets `f`, and returns what is left of the string. -/
def scanInt : List Char → Nat → Bool → Nat × Bool × List Char
  | [], val, f => (val, f, [])
  | c :: cs, val, f =>
    if isDigit c then scanInt cs ((val * 10 % 2 ^ 64 + digitVal c) % 2 ^ 64) true
    else (val, f, c :: cs)

/-- The second loop of `my_get_number`: consumes the digits after the point
into `frac` and `fracdiv` (both `uint64_t`). -/
def scanFrac : List Char → Nat → Nat → Nat × Nat × List Char
  | [], frac, fracdiv => (frac, fracdiv, [])
  | c :: cs, frac, fracdiv =>
    if isDigit c then
      scanFrac cs ((frac * 10 % 2 ^ 64 + digitVal c) % 2 ^ 64) (fracdiv * 10 % 2 ^ 64)
    else (frac, fracdiv, c :: cs)

/-- The `switch` over the decimal prefix letter; `none` is `return -1`. -/
def decimalMult (c : Char) : Option Dbl :=
  if c = 'k' then some (Dbl.ofNat 1000)
  else if c = 'M' then some (Dbl.ofNat 1000000)
  else if c = 'G' then some (Dbl.ofNat 1000000000)
  else if c = 'T' then some (Dbl.ofNat 1000000000000)
  else if c = 'P' then some (Dbl.ofNat 1000000000000000)
  else if c = 'E' then some (Dbl.ofNat 1000000000000000000)
  else none

/-- The `switch` over the binary prefix letter; `none` is `return -1`. -/
def binaryMult (c : Char) : Option Dbl :=
  if c = 'K' then some (Dbl.ofNat 1024)
  else if c = 'M' then some (Dbl.ofNat 1048576)
  else if c = 'G' then some (Dbl.ofNat 1073741824)
  else if c = 'T' then some (Dbl.ofNat 1099511627776)
  else if c = 'P' then some (Dbl.ofNat 1125899906842624)
  else if c = 'E' then some (Dbl.ofNat 1152921504606846976)
  else none

/-- The unit part of `my_get_number` (the `if` chain over `str[0..3]`): the
multiplier `mult`, or `none` for `return -1`. -/
def unitMult (str : List Char) (bytesflag : Bool) : Option Dbl :=
  if charAt str 0 = NUL ∨ (bytesflag = true ∧ charAt str 0 = 'B' ∧ charAt str 1 = NUL) then
    some (Dbl.ofNat 1)
  else if charAt str 0 ≠ NUL ∧
      (charAt str 1 = NUL ∨ (bytesflag = true ∧ charAt str 1 = 'B' ∧ charAt str 2 = NUL)) then
    decimalMult (charAt str 0)
  else if charAt str 0 ≠ NUL ∧ charAt str 1 = 'i' ∧
      (charAt str 2 = NUL ∨ (bytesflag = true ∧ charAt str 2 = 'B' ∧ charAt str 3 = NUL)) then
    binaryMult (charAt str 0)
  else none

/-- The value `round(((double)frac / (double)fracdiv + (double)val) * mult)`. -/
def drvalOf (val frac fracdiv : Nat) (mult : Dbl) : Dbl :=
  Dbl.round (Dbl.mul (Dbl.add (Dbl.div (Dbl.ofNat frac) (Dbl.ofNat fracdiv)) (Dbl.ofNat val)) mult)

/-- The part of `my_get_number` behind the numeric part: unit, value and
ceiling check. -/
def finish (val frac fracdiv : Nat) (str : List Char) (max : Dbl) (bytesflag : Bool) :
    Int × Option Nat :=
  match unitMult str bytesflag with
  | none => (-1, none)
  | some mult =>
    if Dbl.gt (drvalOf val frac fracdiv mult) max then (-2, none)
    else (1, Dbl.toU64 (drvalOf val frac fracdiv mult))

/-- The function `my_get_number(str, ret, max, bytesflag)`.  The result is the
returned `int` together with the value stored in `*ret`: `none` when nothing
was stored, or when the stored value is the conversion of a `double` that
`uint64_t` cannot hold, which C leaves undefined. -/
def my_get_number (str : List Char) (max : Dbl) (bytesflag : Bool) : Int × Option Nat :=
  if charAt (scanInt str 0 false).2.2 0 = '.' then
    if (scanFrac (scanInt str 0 false).2.2.tail 0 1).2.1 = 1 then (-1, none)
    else finish (scanInt str 0 false).1 (scanFrac (scanInt str 0 false).2.2.tail 0 1).1
      (scanFrac (scanInt str 0 false).2.2.tail 0 1).2.1
      (scanFrac (scanInt str 0 false).2.2.tail 0 1).2.2 max bytesflag
  else if (scanInt str 0 false).2.1 = false then (-1, none)
  else finish (scanInt str 0 false).1 0 1 (scanInt str 0 false).2.2 max bytesflag

/-! ### The accepted syntax, as the specification words it -/

/-- The decimal prefix letters `k, M, G, T, P, E`. -/
def decimalLetters : List Char := ['k', 'M', 'G', 'T', 'P', 'E']

/-- The binary prefix letters `K, M, G, T, P, E` (each followed by `i`). -/
def binaryLetters : List Char := ['K', 'M', 'G', 'T', 'P', 'E']

/-- The unit prefixes: empty, one decimal letter, or one binary letter
followed by `i`. -/
def unitPrefixes : List (List Char) :=
  [] :: (decimalLetters.map (fun c => [c]) ++ binaryLetters.map (fun c => [c, 'i']))

/-- A legal suffix: a unit prefix, or, only with the byte flag, a unit prefix
followed by a single `B`. -/
def ValidSuffix (bytesflag : Bool) (suf : List Char) : Prop :=
  suf ∈ unitPrefixes ∨ (bytesflag = true ∧ ∃ u ∈ unitPrefixes, suf = u ++ ['B'])

/-- Every legal suffix, listed. -/
def suffixTable (bytesflag : Bool) : List (List Char) :=
  [[], ['k'], ['M'], ['G'], ['T'], ['P'], ['E'],
    ['K', 'i'], ['M', 'i'], ['G', 'i'], ['T', 'i'], ['P', 'i'], ['E', 'i']] ++
  (if bytesflag then
    [['B'], ['k', 'B'], ['M', 'B'], ['G', 'B'], ['T', 'B'], ['P', 'B'], ['E', 'B'],
      ['K', 'i', 'B'], ['M', 'i', 'B'], ['G', 'i', 'B'], ['T', 'i', 'B'], ['P', 'i', 'B'],
      ['E', 'i', 'B']]
   else [])

/-- A text of the form `<digits*>[.<digits+>]<suffix>` with at least one
digit overall. -/
def WellFormed (bytesflag : Bool) (str : List Char) : Prop :=
  ∃ ip fp suf, (∀ c ∈ ip, isDigit c = true) ∧ (∀ c ∈ fp, isDigit c = true) ∧
    ValidSuffix bytesflag suf ∧
    ((str = ip ++ suf ∧ ip ≠ []) ∨ (str = ip ++ '.' :: fp ++ suf ∧ fp ≠ []))

/-- The whole number a digit string denotes. -/
def natOfDigits (ds : List Char) : Nat := ds.foldl (fun n c => n * 10 + digitVal c) 0

/-- The multiplier of a unit prefix, as the specification tabulates it:
`10 ^ 3 .. 10 ^ 18` for `k .. E` and `2 ^ 10 .. 2 ^ 60` for `Ki .. Ei`. -/
def prefixMultiplier (u : List Char) : Nat :=
  if u = ['k'] then 10 ^ 3 else if u = ['M'] then 10 ^ 6 else if u = ['G'] then 10 ^ 9
  else if u = ['T'] then 10 ^ 12 else if u = ['P'] then 10 ^ 15 else if u = ['E'] then 10 ^ 18
  else if u = ['K', 'i'] then 2 ^ 10 else if u = ['M', 'i'] then 2 ^ 20
  else if u = ['G', 'i'] then 2 ^ 30 else if u = ['T', 'i'] then 2 ^ 40
  else if u = ['P', 'i'] then 2 ^ 50 else if u = ['E', 'i'] then 2 ^ 60
  else 1

/-- The odd factor of the multiplier of a unit prefix: `5 ^ e` for the
decimal multiplier `10 ^ e`, and 1 for a binary multiplier or none. -/
def fivePart (u : List Char) : Nat :=
  if u = ['k'] then 5 ^ 3 else if u = ['M'] then 5 ^ 6 else if u = ['G'] then 5 ^ 9
  else if u = ['T'] then 5 ^ 12 else if u = ['P'] then 5 ^ 15 else if u = ['E'] then 5 ^ 18
  else 1

/-- The exponent of 2 in the multiplier of a unit prefix. -/
def twoPart (u : List Char) : Nat :=
  if u = ['k'] then 3 else if u = ['M'] then 6 else if u = ['G'] then 9
  else if u = ['T'] then 12 else if u = ['P'] then 15 else if u = ['E'] then 18
  else if u = ['K', 'i'] then 10 else if u = ['M', 'i'] then 20
  else if u = ['G', 'i'] then 30 else if u = ['T', 'i'] then 40
  else if u = ['P', 'i'] then 50 else if u = ['E', 'i'] then 60
  else 0

/-- The text made of an integer digit string, an optional point with its
fraction digits, a unit prefix and an optional `B`. -/
def numberText (ip : List Char) (fp : Option (List Char)) (u : List Char) (withB : Bool) :
    List Char :=
  ip ++ ((match fp with | none => [] | some f => '.' :: f) ++ (u ++ if withB then ['B'] else []))

/-- The point with the fraction digits behind it (nothing without a
point). -/
def fracText (fp : Option (List Char)) : List Char :=
  match fp with
  | none => []
  | some f => '.' :: f

/-- The whole number the fraction digits denote (0 without a point). -/
def fracValue (fp : Option (List Char)) : Nat :=
  match fp with
  | none => 0
  | some f => natOfDigits f

/-- The power of ten that belongs to the fraction digits (1 without a
point). -/
def fracDivisor (fp : Option (List Char)) : Nat :=
  match fp with
  | none => 1
  | some f => 10 ^ f.length

/-- The order of the real numbers: the integer `k` is at most the binary64
value `x`.  False for NaN. -/
def Dbl.geNat : Dbl → Nat → Bool
  | Dbl.nan, _ => false
  | Dbl.inf neg, _ => !neg
  | Dbl.fin neg a, k => decide (((k * scale : Nat) : Int) ≤ signed neg a)

/-- The order of the real numbers: the binary64 value `x` is below the
integer `k`.  False for NaN. -/
def Dbl.ltNat : Dbl → Nat → Bool
  | Dbl.nan, _ => false
  | Dbl.inf neg, _ => neg
  | Dbl.fin neg a, k => decide (signed neg a < ((k * scale : Nat) : Int))

/-- A natural number that binary64 holds exactly: at most 53 significant
bits, and below `2 ^ 1024`. -/
def Representable (n : Nat) : Prop := ∃ m k, m < 2 ^ 53 ∧ n = m * 2 ^ k ∧ n < 2 ^ 1024

/-! ## Path components -/

/-- The loop `while (endp > path && *endp == '/') endp--`, started at index
`endp`; the result is the final index. -/
def stripSlashes (path : List Char) : Nat → Nat
  | 0 => 0
  | e + 1 => if charAt path (e + 1) = '/' then stripSlashes path e else e + 1

/-- The loop `while (endp > path && *endp != '/') endp--`. -/
def findDir (path : List Char) : Nat → Nat
  | 0 => 0
  | e + 1 => if charAt path (e + 1) ≠ '/' then findDir path e else e + 1

/-- The loop `while (startp > path && *(startp - 1) != '/') startp--`. -/
def findBase (path : List Char) : Nat → Nat
  | 0 => 0
  | s + 1 => if charAt path s ≠ '/' then findBase path s else s + 1

/-- The function `bsd_basename(path, bname)`, with the platform constant
`PATH_MAX` as a parameter.  `none` stands for a NULL `path`; the result is
`none` for `return -1` and `some bname` for `return 0`. -/
def bsd_basename (PATH_MAX : Nat) (path : Option (List Char)) : Option (List Char) :=
  match path with
  | none => some ['.']
  | some p =>
    if charAt p 0 = NUL then some ['.']
    else if stripSlashes p (p.length - 1) = 0 ∧ charAt p (stripSlashes p (p.length - 1)) = '/' then
      some ['/']
    else if stripSlashes p (p.length - 1) - findBase p (stripSlashes p (p.length - 1)) + 2
        > PATH_MAX then
      none
    else
      some ((p.drop (findBase p (stripSlashes p (p.length - 1)))).take
        (stripSlashes p (p.length - 1) - findBase p (stripSlashes p (p.length - 1)) + 1))

/-- The function `bsd_dirname(path, bname)`, with the platform constant
`PATH_MAX` as a parameter; results as for `bsd_basename`. -/
def bsd_dirname (PATH_MAX : Nat) (path : Option (List Char)) : Option (List Char) :=
  match path with
  | none => some ['.']
  | some p =>
    if charAt p 0 = NUL then some ['.']
    else if findDir p (stripSlashes p (p.length - 1)) = 0 then
      some (if charAt p 0 = '/' then ['/'] else ['.'])
    else if stripSlashes p (findDir p (stripSlashes p (p.length - 1)) - 1) + 2 > PATH_MAX then
      none
    else
      some (p.take (stripSlashes p (findDir p (stripSlashes p (p.length - 1)) - 1) + 1))

/-- The function `dirname_inplace(path)`: the string the buffer holds after
the call (`none` for a NULL pointer, where nothing happens). -/
def dirname_inplace (path : Option (List Char)) : Option (List Char) :=
  match path with
  | none => none
  | some p =>
    if charAt p 0 = NUL then some ['.']
    else if findDir p (stripSlashes p (p.length - 1)) = 0 then
      (if charAt p 0 = '/' then some ['/'] else some ['.'])
    else some (p.take (findDir p (stripSlashes p (p.length - 1))))

/-! ### The reference definitions, as the specification words them -/

/-- The path with its trailing `/` removed, but never its first character. -/
def stripKeepFirst : List Char → List Char
  | [] => []
  | c :: cs => c :: cs.rdropWhile (fun x => x = '/')

/-- Reference `basename`: `"."` for a null or empty path, `"/"` for a path of
slashes only, otherwise what follows the last `/` of the path without its
trailing slashes. -/
def basenameRef (path : Option (List Char)) : List Char :=
  match path with
  | none => ['.']
  | some p =>
    if p = [] then ['.']
    else if p.all (fun x => x = '/') then ['/']
    else (p.rdropWhile (fun x => x = '/')).rtakeWhile (fun x => x ≠ '/')

/-- The part of `s` before its last `/` (empty when `s` has no `/`). -/
def beforeLastSlash (s : List Char) : List Char :=
  (s.rdropWhile (fun x => x ≠ '/')).dropLast

/-- Reference `dirname`. -/
def dirnameRef (path : Option (List Char)) : List Char :=
  match path with
  | none => ['.']
  | some p =>
    if p = [] then ['.']
    else if '/' ∉ stripKeepFirst p then ['.']
    else if beforeLastSlash (stripKeepFirst p) = [] then ['/']
    else stripKeepFirst (beforeLastSlash (stripKeepFirst p))

/-! ## print_number -/

/-- The decimal digits `printf` writes for an unsigned integer. -/
def decimal (n : Nat) : List Char := Nat.toDigits 10 n

/-- A `printf` field of minimum width `w`, right-justified: blanks in front
when the text is shorter, the text as it is otherwise. -/
def padLeft (w : Nat) (s : List Char) : List Char := List.replicate (w - s.length) ' ' ++ s

/-- What `print_number` writes on standard output between `prefix` and
`suffix`.  The global `humode` and the two converters of
`common/human_readable_format.h` are parameters; the `uint8_t` flags are
booleans (true for non-zero). -/
def numberField (humode : Nat) (convertToIec convertToSi : Nat → List Char)
    (number : Nat) (mode32 bytesflag dflag : Bool) : List Char :=
  if dflag then
    if humode > 0 then
      (if bytesflag then
        (if humode = 1 ∨ humode = 3 then padLeft 5 (convertToIec number) ++ ['B']
         else padLeft 4 (convertToSi number) ++ ['B'])
       else
        (if humode = 1 ∨ humode = 3 then ' ' :: padLeft 5 (convertToIec number)
         else ' ' :: padLeft 4 (convertToSi number)))
      ++
      (if humode > 2 then
        (if mode32 then " (".toList ++ padLeft 10 (decimal (number % 2 ^ 32)) ++ ")".toList
         else " (".toList ++ padLeft 20 (decimal number) ++ ")".toList)
       else [])
    else
      (if mode32 then padLeft 10 (decimal (number % 2 ^ 32))
       else padLeft 20 (decimal number))
  else
    if humode = 0 then
      (if mode32 then "         -".toList else "                   -".toList)
    else if humode = 1 then "     -".toList
    else if humode = 2 then "    -".toList
    else if humode = 3 then
      (if mode32 then "                  -".toList else "                            -".toList)
    else if humode = 4 then
      (if mode32 then "                 -".toList else "                           -".toList)
    else []

/-- The column widths of the specification: 10/20 for Raw, 6 for
BinaryShort, 5 for DecimalShort, 19/29 for BinaryLong, 18/28 for DecimalLong
(narrow/wide). -/
def columnWidth (humode : Nat) (mode32 : Bool) : Nat :=
  if humode = 0 then (if mode32 then 10 else 20)
  else if humode = 1 then 6
  else if humode = 2 then 5
  else if humode = 3 then (if mode32 then 19 else 29)
  else (if mode32 then 18 else 28)

/-- The function `print_number`: everything it writes on standard output.
`none` stands for a NULL `prefix` or `suffix`. -/
def print_number (humode : Nat) (convertToIec convertToSi : Nat → List Char)
    (pfx sfx : Option (List Char)) (number : Nat) (mode32 bytesflag dflag : Bool) : List Char :=
  (match pfx with | some t => t | none => []) ++
  numberField humode convertToIec convertToSi number mode32 bytesflag dflag ++
  (match sfx with | some t => t | none => [])

/-! ## Scanning the digits -/

theorem scanInt_rest (s : List Char) (v : Nat) (f : Bool) :
    (scanInt s v f).2.2 = s.dropWhile isDigit := by
  induction s generalizing v f with
  | nil => rfl
  | cons c cs ih =>
    by_cases h : isDigit c = true
    · simp [scanInt, h, ih]
    · simp [scanInt, h]

theorem scanInt_flag (s : List Char) (v : Nat) (f : Bool) :
    (scanInt s v f).2.1 = (f || !(s.takeWhile isDigit).isEmpty) := by
  induction s generalizing v f with
  | nil => simp [scanInt]
  | cons c cs ih =>
    by_cases h : isDigit c = true
    · simp [scanInt, h, ih]
    · simp [scanInt, h]

theorem scanFrac_rest (s : List Char) (fr fd : Nat) :
    (scanFrac s fr fd).2.2 = s.dropWhile isDigit := by
  induction s generalizing fr fd with
  | nil => rfl
  | cons c cs ih =>
    by_cases h : isDigit c = true
    · simp [scanFrac, h, ih]
    · simp [scanFrac, h]

theorem scanFrac_even (s : List Char) (fr fd : Nat) (h : fd % 2 = 0) :
    (scanFrac s fr fd).2.1 % 2 = 0 := by
  induction s generalizing fr fd with
  | nil => simpa [scanFrac] using h
  | cons c cs ih =>
    by_cases hc : isDigit c = true
    · simp only [scanFrac, hc, if_true]
      apply ih
      omega
    · simpa [scanFrac, hc] using h

/-- The divisor stays 1 exactly when no digit follows the point. -/
theorem scanFrac_div_eq_one (s : List Char) (fr : Nat) :
    (scanFrac s fr 1).2.1 = 1 ↔ s.takeWhile isDigit = [] := by
  cases s with
  | nil => simp [scanFrac]
  | cons c cs =>
    by_cases hc : isDigit c = true
    · simp only [scanFrac, hc, if_true, List.takeWhile_cons_of_pos]
      have h := scanFrac_even cs ((fr * 10 % 2 ^ 64 + digitVal c) % 2 ^ 64) (1 * 10 % 2 ^ 64)
        (by norm_num)
      constructor
      · intro h1
        rw [h1] at h
        omega
      · intro h1
        simp at h1
    · simp [scanFrac, hc]

/-- A digit string followed by something that does not start with a digit
is split where the digits end. -/
theorem takeWhile_digits (ds r : List Char) (hd : ∀ c ∈ ds, isDigit c = true)
    (hr : r.takeWhile isDigit = []) : (ds ++ r).takeWhile isDigit = ds := by
  induction ds with
  | nil => simpa using hr
  | cons c cs ih =>
    have hc : isDigit c = true := hd c (List.mem_cons_self _ _)
    simp only [List.cons_append, List.takeWhile_cons_of_pos hc]
    rw [ih (fun x hx => hd x (List.mem_cons_of_mem _ hx))]

theorem dropWhile_digits (ds r : List Char) (hd : ∀ c ∈ ds, isDigit c = true)
    (hr : r.takeWhile isDigit = []) : (ds ++ r).dropWhile isDigit = r := by
  induction ds with
  | nil =>
    cases r with
    | nil => rfl
    | cons c cs =>
      by_cases hc : isDigit c = true
      · simp [hc] at hr
      · simp [hc]
  | cons c cs ih =>
    have hc : isDigit c = true := hd c (List.mem_cons_self _ _)
    simp only [List.cons_append, List.dropWhile_cons_of_pos hc]
    exact ih (fun x hx => hd x (List.mem_cons_of_mem _ hx))

theorem takeWhile_all_digits (s : List Char) : ∀ c ∈ s.takeWhile isDigit, isDigit c = true :=
  fun _ hc => List.mem_takeWhile_imp hc

theorem dropWhile_no_lead_digit (s : List Char) :
    (s.dropWhile isDigit).takeWhile isDigit = [] := by
  induction s with
  | nil => rfl
  | cons c cs ih =>
    by_cases hc : isDigit c = true
    · simpa [hc] using ih
    · simp [hc]

/-! ## The unit suffix -/

theorem validSuffix_iff_table (b : Bool) (suf : List Char) :
    ValidSuffix b suf ↔ suf ∈ suffixTable b := by
  cases b <;>
  simp [ValidSuffix, unitPrefixes, suffixTable, decimalLetters, binaryLetters, or_assoc]

theorem decimalMult_isSome (c : Char) : (decimalMult c).isSome = true ↔ c ∈ decimalLetters := by
  unfold decimalMult decimalLetters
  by_cases h1 : c = 'k'; · simp [h1]
  by_cases h2 : c = 'M'; · simp [h2]
  by_cases h3 : c = 'G'; · simp [h3]
  by_cases h4 : c = 'T'; · simp [h4]
  by_cases h5 : c = 'P'; · simp [h5]
  by_cases h6 : c = 'E'; · simp [h6]
  simp [h1, h2, h3, h4, h5, h6]

theorem binaryMult_isSome (c : Char) : (binaryMult c).isSome = true ↔ c ∈ binaryLetters := by
  unfold binaryMult binaryLetters
  by_cases h1 : c = 'K'; · simp [h1]
  by_cases h2 : c = 'M'; · simp [h2]
  by_cases h3 : c = 'G'; · simp [h3]
  by_cases h4 : c = 'T'; · simp [h4]
  by_cases h5 : c = 'P'; · simp [h5]
  by_cases h6 : c = 'E'; · simp [h6]
  simp [h1, h2, h3, h4, h5, h6]

theorem NUL_ne_B : NUL ≠ 'B' := by decide

theorem NUL_ne_i : NUL ≠ 'i' := by decide

/-- The `if` chain over the unit accepts exactly the legal suffixes. -/
theorem unitMult_isSome (suf : List Char) (b : Bool) (hn : NUL ∉ suf) :
    (unitMult suf b).isSome = true ↔ suf ∈ suffixTable b := by
  match suf, hn with
  | [], _ => simp [unitMult, charAt, suffixTable]
  | [x], hn =>
    have hx : x ≠ NUL := fun h => hn (by simp [h])
    simp only [unitMult, charAt, List.getD_cons_zero, List.getD_cons_succ, List.getD_nil]
    cases b <;> split_ifs <;>
    simp_all [decimalMult_isSome, binaryMult_isSome, suffixTable, decimalLetters, binaryLetters,
      NUL_ne_B, NUL_ne_i]
  | [x, y], hn =>
    have hx : x ≠ NUL := fun h => hn (by simp [h])
    have hy : y ≠ NUL := fun h => hn (by simp [h])
    simp only [unitMult, charAt, List.getD_cons_zero, List.getD_cons_succ, List.getD_nil]
    cases b <;> split_ifs <;>
    simp_all [decimalMult_isSome, binaryMult_isSome, suffixTable, decimalLetters, binaryLetters,
      NUL_ne_B, NUL_ne_i]
  | [x, y, z], hn =>
    have hx : x ≠ NUL := fun h => hn (by simp [h])
    have hy : y ≠ NUL := fun h => hn (by simp [h])
    have hz : z ≠ NUL := fun h => hn (by simp [h])
    simp only [unitMult, charAt, List.getD_cons_zero, List.getD_cons_succ, List.getD_nil]
    cases b <;> split_ifs <;>
    simp_all [decimalMult_isSome, binaryMult_isSome, suffixTable, decimalLetters, binaryLetters,
      NUL_ne_B, NUL_ne_i]
  | x :: y :: z :: w :: r, hn =>
    have hx : x ≠ NUL := fun h => hn (by simp [h])
    have hy : y ≠ NUL := fun h => hn (by simp [h])
    have hz : z ≠ NUL := fun h => hn (by simp [h])
    have hw : w ≠ NUL := fun h => hn (by simp [h])
    simp only [unitMult, charAt, List.getD_cons_zero, List.getD_cons_succ, List.getD_nil]
    cases b <;> split_ifs <;>
    simp_all [decimalMult_isSome, binaryMult_isSome, suffixTable, decimalLetters, binaryLetters,
      NUL_ne_B, NUL_ne_i]

theorem suffixTable_no_digit (b : Bool) :
    ∀ suf ∈ suffixTable b, suf.takeWhile isDigit = [] ∧ charAt suf 0 ≠ '.' := by
  cases b <;> decide

theorem validSuffix_no_digit {b : Bool} {suf : List Char} (h : ValidSuffix b suf) :
    suf.takeWhile isDigit = [] :=
  (suffixTable_no_digit b suf ((validSuffix_iff_table b suf).1 h)).1

theorem validSuffix_no_point {b : Bool} {suf : List Char} (h : ValidSuffix b suf) :
    charAt suf 0 ≠ '.' :=
  (suffixTable_no_digit b suf ((validSuffix_iff_table b suf).1 h)).2

theorem charAt_zero_eq_point {r : List Char} (h : charAt r 0 = '.') : r = '.' :: r.tail := by
  cases r with
  | nil => exact absurd h (by decide)
  | cons c cs => simp [charAt] at h; simp [h]

/-- The syntax of the specification, read deterministically from the left. -/
theorem wellFormed_iff (b : Bool) (s : List Char) :
    WellFormed b s ↔
      if charAt (s.dropWhile isDigit) 0 = '.' then
        (s.dropWhile isDigit).tail.takeWhile isDigit ≠ [] ∧
          ValidSuffix b ((s.dropWhile isDigit).tail.dropWhile isDigit)
      else s.takeWhile isDigit ≠ [] ∧ ValidSuffix b (s.dropWhile isDigit) := by
  constructor
  · rintro ⟨ip, fp, suf, hip, hfp, hv, h⟩
    rcases h with ⟨rfl, hne⟩ | ⟨rfl, hne⟩
    · rw [dropWhile_digits ip suf hip (validSuffix_no_digit hv),
        takeWhile_digits ip suf hip (validSuffix_no_digit hv), if_neg (validSuffix_no_point hv)]
      exact ⟨hne, hv⟩
    · have e : ip ++ '.' :: fp ++ suf = ip ++ ('.' :: (fp ++ suf)) := by simp
      have hp : ('.' :: (fp ++ suf)).takeWhile isDigit = [] := by
        rw [List.takeWhile_cons_of_neg (by decide)]
      rw [e, dropWhile_digits ip _ hip hp, if_pos (by simp [charAt])]
      simp only [List.tail_cons]
      rw [takeWhile_digits fp suf hfp (validSuffix_no_digit hv),
        dropWhile_digits fp suf hfp (validSuffix_no_digit hv)]
      exact ⟨hne, hv⟩
  · intro h
    split_ifs at h with hp
    · refine ⟨s.takeWhile isDigit, (s.dropWhile isDigit).tail.takeWhile isDigit,
        (s.dropWhile isDigit).tail.dropWhile isDigit, takeWhile_all_digits _,
        takeWhile_all_digits _, h.2, Or.inr ⟨?_, h.1⟩⟩
      have e1 : s = s.takeWhile isDigit ++ s.dropWhile isDigit :=
        (List.takeWhile_append_dropWhile _ _).symm
      have e2 := charAt_zero_eq_point hp
      have e3 : (s.dropWhile isDigit).tail = (s.dropWhile isDigit).tail.takeWhile isDigit ++
          (s.dropWhile isDigit).tail.dropWhile isDigit :=
        (List.takeWhile_append_dropWhile _ _).symm
      rw [List.append_assoc, List.cons_append, ← e3, ← e2]
      exact e1
    · exact ⟨s.takeWhile isDigit, [], s.dropWhile isDigit, takeWhile_all_digits _,
        by simp, h.2, Or.inl ⟨(List.takeWhile_append_dropWhile _ _).symm, h.1⟩⟩

theorem finish_malformed (val frac fracdiv : Nat) (str : List Char) (max : Dbl) (b : Bool) :
    (finish val frac fracdiv str max b).1 = -1 ↔ (unitMult str b).isSome = false := by
  unfold finish
  cases unitMult str b with
  | none => simp
  | some m => by_cases h : (drvalOf val frac fracdiv m).gt max = true <;> simp [h]

theorem not_mem_dropWhile {s : List Char} (hn : NUL ∉ s) : NUL ∉ s.dropWhile isDigit :=
  fun h => hn ((List.dropWhile_suffix isDigit).subset h)

theorem not_mem_tail {s : List Char} (hn : NUL ∉ s) : NUL ∉ s.tail :=
  fun h => hn (List.mem_of_mem_tail h)

/-- The return value -1 characterised: the text is outside the accepted
syntax. -/
theorem malformed_iff (s : List Char) (max : Dbl) (b : Bool) (hn : NUL ∉ s) :
    (my_get_number s max b).1 = -1 ↔ ¬ WellFormed b s := by
  rw [wellFormed_iff]
  unfold my_get_number
  simp only [scanInt_rest, scanInt_flag, scanFrac_rest, Bool.false_or]
  by_cases hp : charAt (s.dropWhile isDigit) 0 = '.'
  · simp only [hp, if_true]
    by_cases hd : (s.dropWhile isDigit).tail.takeWhile isDigit = []
    · simp [(scanFrac_div_eq_one _ 0).2 hd, hd]
    · have hd1 : ¬ (scanFrac (s.dropWhile isDigit).tail 0 1).2.1 = 1 :=
        fun h => hd ((scanFrac_div_eq_one _ 0).1 h)
      rw [if_neg hd1, finish_malformed]
      have key := unitMult_isSome _ b (not_mem_dropWhile (not_mem_tail (not_mem_dropWhile hn)))
      rw [← validSuffix_iff_table] at key
      simp [hd, ← key]
  · simp only [hp, if_false]
    by_cases hd : s.takeWhile isDigit = []
    · simp [hd]
    · have hd1 : (!(s.takeWhile isDigit).isEmpty) = true := by
        cases h : s.takeWhile isDigit with
        | nil => exact absurd h hd
        | cons c cs => rfl
      rw [hd1, if_neg (by simp), finish_malformed]
      have := unitMult_isSome _ b (not_mem_dropWhile hn)
      rw [← validSuffix_iff_table] at this
      simp [hd, ← this]

/-! ## Exact binary64 arithmetic -/

theorem log2Loop_eq (fuel n acc : Nat) (h : n ≤ fuel) :
    log2Loop fuel n acc = acc + Nat.log2 n := by
  induction fuel generalizing n acc with
  | zero =>
    have : n = 0 := by omega
    subst this
    simp [log2Loop, Nat.log2]
  | succ f ih =>
    unfold log2Loop
    by_cases h2 : 2 ≤ n
    · rw [if_pos h2, ih (n / 2) (acc + 1) (by omega)]
      conv_rhs => rw [Nat.log2]
      rw [if_pos h2]
      omega
    · rw [if_neg h2]
      conv_rhs => rw [Nat.log2]
      rw [if_neg h2]
      rfl

theorem ilog2_eq (n : Nat) : ilog2 n = Nat.log2 n := by
  unfold ilog2
  rw [log2Loop_eq n n 0 (Nat.le_refl n)]
  omega

theorem rne_mul_left (q t : Nat) (hq : 0 < q) : rne (q * t) q = t := by
  unfold rne
  rw [Nat.mul_mod_right, Nat.mul_div_cancel_left t hq, if_pos (by omega)]

/-- A magnitude with at most 53 significant bits is rounded to itself. -/
theorem fl_exact (q m j : Nat) (hq : 0 < q) (hm : m < 2 ^ 53) :
    fl (q * (m * 2 ^ j)) q = m * 2 ^ j := by
  unfold fl
  rw [Nat.mul_div_cancel_left _ hq, ilog2_eq]
  by_cases h0 : m * 2 ^ j = 0
  · rw [h0]
    simp [rne, Nat.log2]
  · have hlt : m * 2 ^ j < 2 ^ (53 + j) := by
      rw [pow_add]
      exact Nat.mul_lt_mul_of_pos_right hm (by positivity)
    have hlog : Nat.log2 (m * 2 ^ j) < 53 + j := (Nat.log2_lt h0).2 hlt
    obtain ⟨d, hd⟩ : ∃ d, j = (Nat.log2 (m * 2 ^ j) - 52) + d := ⟨j - (Nat.log2 (m * 2 ^ j) - 52), by omega⟩
    generalize Nat.log2 (m * 2 ^ j) - 52 = k at hd
    subst hd
    have e : q * (m * 2 ^ (k + d)) = (q * 2 ^ k) * (m * 2 ^ d) := by
      rw [pow_add]; ring
    rw [e, rne_mul_left _ _ (by positivity), pow_add]
    ring

theorem rnd_exact (neg : Bool) (q m j : Nat) (hq : 0 < q) (hm : m < 2 ^ 53)
    (hf : m * 2 ^ j < huge) : Dbl.rnd neg (q * (m * 2 ^ j)) q = Dbl.fin neg (m * 2 ^ j) := by
  unfold Dbl.rnd
  rw [fl_exact q m j hq hm, if_neg (by omega)]

theorem scale_pos : 0 < scale := by unfold scale; positivity

theorem huge_eq : huge = 2 ^ 1024 * scale := by
  unfold huge scale
  rw [← pow_add]

/-- An exactly representable integer, placed on the binary64 grid. -/
theorem rnd_representable (neg : Bool) (q n : Nat) (hq : 0 < q) (hn : Representable n) :
    Dbl.rnd neg (q * (n * scale)) q = Dbl.fin neg (n * scale) := by
  obtain ⟨m, k, hm, rfl, hlt⟩ := hn
  have e : m * 2 ^ k * scale = m * 2 ^ (k + 1074) := by
    unfold scale; rw [pow_add]; ring
  rw [e]
  apply rnd_exact neg q m (k + 1074) hq hm
  rw [← e, huge_eq]
  exact Nat.mul_lt_mul_of_pos_right hlt scale_pos

theorem ofNat_representable (n : Nat) (hn : Representable n) :
    Dbl.ofNat n = Dbl.fin false (n * scale) := by
  have := rnd_representable false 1 n (by norm_num) hn
  simpa [Dbl.ofNat] using this

theorem representable_zero : Representable 0 := ⟨0, 0, by norm_num, by norm_num, by norm_num⟩

theorem representable_one : Representable 1 := ⟨1, 0, by norm_num, by norm_num, by norm_num⟩

theorem representable_of_lt (n : Nat) (h : n < 2 ^ 53) : Representable n :=
  ⟨n, 0, h, by simp, lt_trans h (by norm_num)⟩

/-- The value `round((0 / 1 + n) * m)` when `n`, `m` and `n * m` are exact. -/
theorem drvalOf_exact (n m : Nat) (hn : Representable n) (hm : Representable m)
    (hnm : Representable (n * m)) :
    drvalOf n 0 1 (Dbl.ofNat m) = Dbl.fin false (n * m * scale) := by
  unfold drvalOf
  rw [ofNat_representable 0 representable_zero, ofNat_representable 1 representable_one,
    ofNat_representable n hn, ofNat_representable m hm]
  have h1 : Dbl.div (Dbl.fin false (0 * scale)) (Dbl.fin false (1 * scale)) = Dbl.fin false 0 := by
    have := rnd_representable false scale 0 scale_pos representable_zero
    simp only [Dbl.div, Nat.zero_mul, Nat.one_mul, Nat.mul_zero] at this ⊢
    rw [if_neg (Nat.pos_iff_ne_zero.1 scale_pos)]
    simpa using this
  rw [h1]
  have h2 : Dbl.add (Dbl.fin false 0) (Dbl.fin false (n * scale)) = Dbl.fin false (n * scale) := by
    have := rnd_representable false 1 n (by norm_num) hn
    simpa [Dbl.add] using this
  rw [h2]
  have h3 : Dbl.mul (Dbl.fin false (n * scale)) (Dbl.fin false (m * scale))
      = Dbl.fin false (n * m * scale) := by
    have := rnd_representable false scale (n * m) scale_pos hnm
    have e : n * scale * (m * scale) = scale * (n * m * scale) := by ring
    simp only [Dbl.mul, e]
    simpa using this
  rw [h3]
  simp only [Dbl.round]
  apply congrArg (Dbl.fin false)
  have e : 2 * (n * m * scale) + scale = scale + (2 * scale) * (n * m) := by ring
  rw [e, Nat.add_mul_div_left _ _ (by have := scale_pos; omega),
    Nat.div_eq_of_lt (by have := scale_pos; omega)]
  simp

theorem toU64_exact (k : Nat) (hk : k < 2 ^ 64) :
    Dbl.toU64 (Dbl.fin false (k * scale)) = some k := by
  simp only [Dbl.toU64]
  rw [Nat.mul_div_cancel _ scale_pos, if_pos hk]

/-! ## The value of the digits and of the unit -/

theorem scanInt_append (ds r : List Char) (v : Nat) (f : Bool)
    (hd : ∀ c ∈ ds, isDigit c = true) (hr : r.takeWhile isDigit = []) :
    scanInt (ds ++ r) v f =
      (ds.foldl (fun n c => (n * 10 % 2 ^ 64 + digitVal c) % 2 ^ 64) v, (f || !ds.isEmpty), r) := by
  induction ds generalizing v f with
  | nil =>
    cases r with
    | nil => simp [scanInt]
    | cons c cs =>
      have hc : isDigit c = false := by
        by_cases h : isDigit c = true
        · simp [h] at hr
        · simpa using h
      simp [scanInt, hc]
  | cons c cs ih =>
    have hc : isDigit c = true := hd c (List.mem_cons_self _ _)
    rw [List.cons_append, scanInt, if_pos hc, ih _ _ (fun x hx => hd x (List.mem_cons_of_mem _ hx))]
    simp

theorem scanFrac_append (ds r : List Char) (fr fd : Nat)
    (hd : ∀ c ∈ ds, isDigit c = true) (hr : r.takeWhile isDigit = []) :
    scanFrac (ds ++ r) fr fd =
      (ds.foldl (fun n c => (n * 10 % 2 ^ 64 + digitVal c) % 2 ^ 64) fr,
        ds.foldl (fun d _ => d * 10 % 2 ^ 64) fd, r) := by
  induction ds generalizing fr fd with
  | nil =>
    cases r with
    | nil => simp [scanFrac]
    | cons c cs =>
      have hc : isDigit c = false := by
        by_cases h : isDigit c = true
        · simp [h] at hr
        · simpa using h
      simp [scanFrac, hc]
  | cons c cs ih =>
    have hc : isDigit c = true := hd c (List.mem_cons_self _ _)
    rw [List.cons_append, scanFrac, if_pos hc, ih _ _ (fun x hx => hd x (List.mem_cons_of_mem _ hx))]
    simp

theorem foldl_digits_mod (ds : List Char) (v : Nat) :
    ds.foldl (fun n c => (n * 10 % 2 ^ 64 + digitVal c) % 2 ^ 64) (v % 2 ^ 64) =
      (ds.foldl (fun n c => n * 10 + digitVal c) v) % 2 ^ 64 := by
  induction ds generalizing v with
  | nil => rfl
  | cons c cs ih =>
    simp only [List.foldl_cons]
    rw [← ih]
    congr 1
    omega

theorem foldl_digits_natOfDigits (ds : List Char) :
    ds.foldl (fun n c => (n * 10 % 2 ^ 64 + digitVal c) % 2 ^ 64) 0 = natOfDigits ds % 2 ^ 64 := by
  have := foldl_digits_mod ds 0
  simpa [natOfDigits] using this

theorem foldl_fracdiv (ds : List Char) (d : Nat) :
    ds.foldl (fun d _ => d * 10 % 2 ^ 64) (d % 2 ^ 64) = d * 10 ^ ds.length % 2 ^ 64 := by
  induction ds generalizing d with
  | nil => simp
  | cons c cs ih =>
    simp only [List.foldl_cons, List.length_cons]
    have e : d % 2 ^ 64 * 10 % 2 ^ 64 = (d * 10) % 2 ^ 64 := by omega
    rw [e, ih, pow_succ]
    congr 1
    ring

theorem prefix_table :
    ∀ u ∈ unitPrefixes, prefixMultiplier u = fivePart u * 2 ^ twoPart u ∧
      0 < fivePart u ∧ fivePart u < 2 ^ 53 ∧ twoPart u ≤ 60 := by
  decide

theorem unitMult_table (b : Bool) :
    ∀ u ∈ unitPrefixes, unitMult u b = some (Dbl.ofNat (prefixMultiplier u)) ∧
      unitMult (u ++ ['B']) true = some (Dbl.ofNat (prefixMultiplier u)) := by
  cases b <;> decide!

theorem validSuffix_of_unit {u : List Char} {withB b : Bool} (hu : u ∈ unitPrefixes)
    (hB : withB = true → b = true) : ValidSuffix b (u ++ if withB then ['B'] else []) := by
  cases withB with
  | false => exact Or.inl (by simpa using hu)
  | true => exact Or.inr ⟨hB rfl, u, hu, by simp⟩

/-- Behind a legal suffix the function compares the rounded value with the
ceiling and stores it. -/
theorem finish_valid (v fr fd : Nat) (u : List Char) (withB b : Bool) (max : Dbl)
    (hu : u ∈ unitPrefixes) (hB : withB = true → b = true) :
    finish v fr fd (u ++ if withB then ['B'] else []) max b =
      if Dbl.gt (drvalOf v fr fd (Dbl.ofNat (prefixMultiplier u))) max = true then (-2, none)
      else (1, Dbl.toU64 (drvalOf v fr fd (Dbl.ofNat (prefixMultiplier u)))) := by
  have hm : unitMult (u ++ if withB then ['B'] else []) b
      = some (Dbl.ofNat (prefixMultiplier u)) := by
    cases withB with
    | false => simpa using (unitMult_table b u hu).1
    | true =>
      have hb : b = true := hB rfl
      subst hb
      simpa using (unitMult_table true u hu).2
  unfold finish
  rw [hm]

/-- The numeric part of a well-formed text is read into `val`, `frac` and
`fracdiv` digit by digit, modulo `2 ^ 64`. -/
theorem my_get_number_text (ip : List Char) (fp : Option (List Char)) (u : List Char)
    (withB b : Bool) (max : Dbl) (hip : ∀ c ∈ ip, isDigit c = true)
    (hfp : ∀ f, fp = some f → (∀ c ∈ f, isDigit c = true) ∧ f ≠ [])
    (hne : fp = none → ip ≠ []) (hu : u ∈ unitPrefixes) (hB : withB = true → b = true) :
    my_get_number (numberText ip fp u withB) max b =
      finish (natOfDigits ip % 2 ^ 64)
        (match fp with | none => 0 | some f => natOfDigits f % 2 ^ 64)
        (match fp with | none => 1 | some f => 10 ^ f.length % 2 ^ 64)
        (u ++ if withB then ['B'] else []) max b := by
  have hv := validSuffix_of_unit hu hB
  have hnd := validSuffix_no_digit hv
  have hnp := validSuffix_no_point hv
  unfold numberText
  generalize (u ++ if withB then ['B'] else []) = suf at *
  cases fp with
  | none =>
    have hi : ip ≠ [] := hne rfl
    have hflag : (!ip.isEmpty) = true := by
      cases ip with
      | nil => exact absurd rfl hi
      | cons c cs => rfl
    unfold my_get_number
    simp only [List.nil_append]
    rw [scanInt_append ip suf 0 false hip hnd]
    simp only [Bool.false_or, hflag]
    rw [if_neg hnp, if_neg (by simp), foldl_digits_natOfDigits]
  | some f =>
    obtain ⟨hf, hfne⟩ := hfp f rfl
    have hp : ('.' :: f ++ suf).takeWhile isDigit = [] := by
      rw [List.cons_append, List.takeWhile_cons_of_neg (by decide)]
    unfold my_get_number
    simp only []
    rw [scanInt_append ip ('.' :: f ++ suf) 0 false hip hp]
    simp only [List.cons_append, List.tail_cons]
    rw [if_pos (by simp [charAt]), scanFrac_append f suf 0 1 hf hnd]
    simp only []
    have h1 := foldl_fracdiv f 1
    have e1 : (1 : Nat) % 2 ^ 64 = 1 := by norm_num
    rw [e1] at h1
    have hne1 : ¬ List.foldl (fun d _ => d * 10 % 2 ^ 64) 1 f = 1 := by
      intro h
      have h2 := (scanFrac_div_eq_one (f ++ suf) 0).1 (by
        rw [scanFrac_append f suf 0 1 hf hnd]; exact h)
      rw [takeWhile_digits f suf hf hnd] at h2
      exact hfne h2
    rw [if_neg hne1, foldl_digits_natOfDigits, foldl_digits_natOfDigits, h1, Nat.one_mul]

theorem gt_false_of_geNat (max : Dbl) (k : Nat) (h : Dbl.geNat max k = true) :
    Dbl.gt (Dbl.fin false (k * scale)) max = false := by
  cases max with
  | nan => simp [Dbl.geNat] at h
  | inf neg =>
    cases neg with
    | false => rfl
    | true => simp [Dbl.geNat] at h
  | fin neg a =>
    simp only [Dbl.geNat, decide_eq_true_eq] at h
    simp only [Dbl.gt, signed, decide_eq_false_iff_not, not_lt]
    simpa using h

theorem gt_true_of_ltNat (max : Dbl) (k : Nat) (h : Dbl.ltNat max k = true) :
    Dbl.gt (Dbl.fin false (k * scale)) max = true := by
  cases max with
  | nan => simp [Dbl.ltNat] at h
  | inf neg =>
    cases neg with
    | false => simp [Dbl.ltNat] at h
    | true => rfl
  | fin neg a =>
    simp only [Dbl.ltNat, decide_eq_true_eq] at h
    simp only [Dbl.gt, signed, decide_eq_true_eq]
    simpa using h

theorem natOfDigits_foldl_lt (ds : List Char) (v : Nat) (hd : ∀ c ∈ ds, isDigit c = true) :
    ds.foldl (fun n c => n * 10 + digitVal c) v < (v + 1) * 10 ^ ds.length := by
  induction ds generalizing v with
  | nil => simp
  | cons c cs ih =>
    have hc : isDigit c = true := hd c (List.mem_cons_self _ _)
    have h9 : digitVal c ≤ 9 := by
      simp only [isDigit, Bool.and_eq_true, decide_eq_true_eq] at hc
      have e : '9'.toNat = '0'.toNat + 9 := by decide
      unfold digitVal
      omega
    simp only [List.foldl_cons, List.length_cons]
    calc cs.foldl (fun n c => n * 10 + digitVal c) (v * 10 + digitVal c)
        < (v * 10 + digitVal c + 1) * 10 ^ cs.length :=
          ih _ (fun x hx => hd x (List.mem_cons_of_mem _ hx))
      _ ≤ ((v + 1) * 10) * 10 ^ cs.length := Nat.mul_le_mul_right _ (by omega)
      _ = (v + 1) * 10 ^ (cs.length + 1) := by rw [pow_succ]; ring

theorem natOfDigits_lt (ds : List Char) (hd : ∀ c ∈ ds, isDigit c = true) :
    natOfDigits ds < 10 ^ ds.length := by
  have := natOfDigits_foldl_lt ds 0 hd
  simpa [natOfDigits] using this

theorem digitChar_spec :
    ∀ k, k < 10 → isDigit (Nat.digitChar k) = true ∧ digitVal (Nat.digitChar k) = k := by
  decide

theorem toDigitsCore_spec (fuel n : Nat) (ds : List Char) (h : n < fuel) :
    ∃ l, Nat.toDigitsCore 10 fuel n ds = l ++ ds ∧ l ≠ [] ∧ (∀ c ∈ l, isDigit c = true) ∧
      ∀ v, l.foldl (fun n c => n * 10 + digitVal c) v = v * 10 ^ l.length + n := by
  induction fuel generalizing n ds with
  | zero => omega
  | succ f ih =>
    have hd := digitChar_spec (n % 10) (Nat.mod_lt _ (by norm_num))
    unfold Nat.toDigitsCore
    by_cases h0 : n / 10 = 0
    · simp only [h0, if_true]
      refine ⟨[Nat.digitChar (n % 10)], rfl, by simp, ?_, ?_⟩
      · intro c hc
        simp only [List.mem_singleton] at hc
        rw [hc]; exact hd.1
      · intro v
        simp only [List.foldl_cons, List.foldl_nil, List.length_singleton, pow_one, hd.2]
        omega
    · simp only [h0, if_false]
      obtain ⟨l, hl, _, hdig, hval⟩ := ih (n / 10) (Nat.digitChar (n % 10) :: ds) (by omega)
      refine ⟨l ++ [Nat.digitChar (n % 10)], by simp [hl], by simp, ?_, ?_⟩
      · intro c hc
        rcases List.mem_append.1 hc with hc | hc
        · exact hdig c hc
        · simp only [List.mem_singleton] at hc
          rw [hc]; exact hd.1
      · intro v
        simp only [List.foldl_append, List.foldl_cons, List.foldl_nil, hval, hd.2,
          List.length_append, List.length_singleton, pow_succ]
        have := Nat.div_add_mod n 10
        nlinarith [this]

/-- The digits `printf` writes denote the number printed. -/
theorem decimal_spec (n : Nat) :
    decimal n ≠ [] ∧ (∀ c ∈ decimal n, isDigit c = true) ∧ natOfDigits (decimal n) = n := by
  obtain ⟨l, hl, hne, hdig, hval⟩ := toDigitsCore_spec (n + 1) n [] (by omega)
  have e : decimal n = l := by simpa [decimal, Nat.toDigits] using hl
  rw [e]
  refine ⟨hne, hdig, ?_⟩
  have := hval 0
  simpa [natOfDigits] using this

theorem exact_product (n : Nat) (u : List Char) (hu : u ∈ unitPrefixes)
    (hex : n * fivePart u < 2 ^ 53) :
    Representable n ∧ Representable (prefixMultiplier u) ∧
      Representable (n * prefixMultiplier u) := by
  obtain ⟨hm, h5, h53, h2⟩ := prefix_table u hu
  have hp : (2 : Nat) ^ twoPart u ≤ 2 ^ 60 := Nat.pow_le_pow_right (by norm_num) h2
  have hn : n < 2 ^ 53 := lt_of_le_of_lt (Nat.le_mul_of_pos_right n h5) hex
  refine ⟨representable_of_lt n hn, ⟨fivePart u, twoPart u, h53, hm, ?_⟩,
    ⟨n * fivePart u, twoPart u, hex, by rw [hm]; ring, ?_⟩⟩
  · rw [hm]
    calc fivePart u * 2 ^ twoPart u < 2 ^ 53 * 2 ^ 60 :=
          Nat.mul_lt_mul_of_lt_of_le h53 hp (by positivity)
      _ < 2 ^ 1024 := by norm_num
  · rw [hm]
    calc n * (fivePart u * 2 ^ twoPart u) = (n * fivePart u) * 2 ^ twoPart u := by ring
      _ < 2 ^ 53 * 2 ^ 60 := Nat.mul_lt_mul_of_lt_of_le hex hp (by positivity)
      _ < 2 ^ 1024 := by norm_num

theorem representable_multiplier (u : List Char) (hu : u ∈ unitPrefixes) :
    Representable (prefixMultiplier u) := by
  obtain ⟨hm, h5, h53, h2⟩ := prefix_table u hu
  have hp : (2 : Nat) ^ twoPart u ≤ 2 ^ 60 := Nat.pow_le_pow_right (by norm_num) h2
  refine ⟨fivePart u, twoPart u, h53, hm, ?_⟩
  rw [hm]
  calc fivePart u * 2 ^ twoPart u < 2 ^ 53 * 2 ^ 60 :=
        Nat.mul_lt_mul_of_lt_of_le h53 hp (by positivity)
    _ < 2 ^ 1024 := by norm_num

/-- A whole number with an exactly representable product: the function
compares `n * m` itself with the ceiling. -/
theorem whole_number_value (ds u : List Char) (withB b : Bool) (max : Dbl) (hds : ds ≠ [])
    (hd : ∀ c ∈ ds, isDigit c = true) (hu : u ∈ unitPrefixes) (hB : withB = true → b = true)
    (hlt : natOfDigits ds < 2 ^ 64) (hn : Representable (natOfDigits ds))
    (hnm : Representable (natOfDigits ds * prefixMultiplier u)) :
    my_get_number (numberText ds none u withB) max b =
      if Dbl.gt (Dbl.fin false (natOfDigits ds * prefixMultiplier u * scale)) max = true then
        (-2, none)
      else (1, Dbl.toU64 (Dbl.fin false (natOfDigits ds * prefixMultiplier u * scale))) := by
  rw [my_get_number_text ds none u withB b max hd (by simp) (fun _ => hds) hu hB]
  simp only []
  rw [Nat.mod_eq_of_lt hlt, finish_valid _ _ _ u withB b max hu hB,
    drvalOf_exact _ _ hn (representable_multiplier u hu) hnm]

theorem lt_of_exact (n : Nat) (u : List Char) (hu : u ∈ unitPrefixes)
    (hex : n * fivePart u < 2 ^ 53) : n < 2 ^ 64 :=
  lt_trans (lt_of_le_of_lt (Nat.le_mul_of_pos_right _ (prefix_table u hu).2.1) hex) (by norm_num)

/-- C1: `my_get_number` returns -1 exactly for the texts outside the syntax
`<digits*>[.<digits+>]<suffix>` (at least one digit; the suffix a unit
prefix, with a single `B` behind it only under the byte flag), and whether it
does never depends on the ceiling. -/
theorem malformed_iff_not_wellFormed (str : List Char) (max : Dbl) (bytesflag : Bool)
    (hn : NUL ∉ str) :
    ((my_get_number str max bytesflag).1 = -1 ↔ ¬ WellFormed bytesflag str) ∧
      ∀ max2 : Dbl, (my_get_number str max bytesflag).1 = -1 ↔
        (my_get_number str max2 bytesflag).1 = -1 :=
  ⟨malformed_iff str max bytesflag hn, fun max2 =>
    (malformed_iff str max bytesflag hn).trans (malformed_iff str max2 bytesflag hn).symm⟩

theorem malformed_iff_not_wellFormed_witness :
    ((my_get_number "1.5kB".toList (Dbl.ofNat 7) true).1 = -1 ↔ ¬ WellFormed true "1.5kB".toList) ∧
      ∀ max2 : Dbl, (my_get_number "1.5kB".toList (Dbl.ofNat 7) true).1 = -1 ↔
        (my_get_number "1.5kB".toList max2 true).1 = -1 :=
  malformed_iff_not_wellFormed "1.5kB".toList (Dbl.ofNat 7) true (by decide)

/-- C2 (counterexample): the text "0.4" denotes a value above the ceiling 0
and yet is a success with value 0; the text "9007199254740993" denotes
2^53 + 1, above the ceiling 2^53, and yet is a success with value 2^53. -/
theorem over_ceiling_accepted :
    my_get_number "0.4".toList (Dbl.ofNat 0) false = (1, some 0) ∧
      natOfDigits "9007199254740993".toList = 2 ^ 53 + 1 ∧
      Dbl.ofNat (2 ^ 53) = Dbl.fin false (2 ^ 53 * scale) ∧
      my_get_number "9007199254740993".toList (Dbl.ofNat (2 ^ 53)) false = (1, some (2 ^ 53)) := by
  decide!

/-- C2 (amended): for a well-formed text whose integer digits stay below 2^64
and that has at most 19 fraction digits, the function returns -2 and stores
nothing whenever the value it computes in binary64,
`round((frac / fracdiv + val) * mult)`, exceeds the ceiling; for a whole
number `n` whose product with the multiplier `m` is exactly representable
that is whenever `n * m` exceeds the ceiling. -/
theorem over_ceiling_rejected (ip : List Char) (fp : Option (List Char)) (u : List Char)
    (withB bytesflag : Bool) (max : Dbl) (hip : ∀ c ∈ ip, isDigit c = true)
    (hfp : ∀ f, fp = some f → (∀ c ∈ f, isDigit c = true) ∧ f ≠ [] ∧ f.length ≤ 19)
    (hne : fp = none → ip ≠ []) (hu : u ∈ unitPrefixes) (hB : withB = true → bytesflag = true)
    (hval : natOfDigits ip < 2 ^ 64) :
    (Dbl.gt (drvalOf (natOfDigits ip) (fracValue fp) (fracDivisor fp)
        (Dbl.ofNat (prefixMultiplier u))) max = true →
      my_get_number (numberText ip fp u withB) max bytesflag = (-2, none)) ∧
    (fp = none → natOfDigits ip * fivePart u < 2 ^ 53 →
      Dbl.ltNat max (natOfDigits ip * prefixMultiplier u) = true →
      my_get_number (numberText ip fp u withB) max bytesflag = (-2, none)) := by
  constructor
  · intro hgt
    rw [my_get_number_text ip fp u withB bytesflag max hip
      (fun f hf => ⟨(hfp f hf).1, (hfp f hf).2.1⟩) hne hu hB, Nat.mod_eq_of_lt hval]
    cases fp with
    | none =>
      simp only [fracValue, fracDivisor] at hgt ⊢
      rw [finish_valid _ _ _ u withB bytesflag max hu hB, if_pos hgt]
    | some f =>
      obtain ⟨hf, _, hlen⟩ := hfp f rfl
      have h10 : 10 ^ f.length < 2 ^ 64 :=
        lt_of_le_of_lt (Nat.pow_le_pow_right (by norm_num) hlen) (by norm_num)
      simp only [fracValue, fracDivisor] at hgt ⊢
      rw [Nat.mod_eq_of_lt (lt_trans (natOfDigits_lt f hf) h10), Nat.mod_eq_of_lt h10,
        finish_valid _ _ _ u withB bytesflag max hu hB, if_pos hgt]
  · intro hnone hex hlt
    subst hnone
    obtain ⟨hn, _, hnm⟩ := exact_product _ u hu hex
    rw [whole_number_value ip u withB bytesflag max (hne rfl) hip hu hB hval hn hnm,
      if_pos (gt_true_of_ltNat max _ hlt)]

theorem over_ceiling_rejected_witness :
    my_get_number "999E".toList (Dbl.ofNat 1000) false = (-2, none) :=
  (over_ceiling_rejected "999".toList none "E".toList false false (Dbl.ofNat 1000) (by decide)
    (by simp) (by simp) (by decide) (by simp) (by decide)).2 rfl (by decide) (by decide!)

/-- C3 (counterexample): 2^53 + 1 is printed as "9007199254740993", and that
text, under a ceiling of 2^64, parses to 2^53. -/
theorem raw_round_trip_inexact :
    decimal 9007199254740993 = "9007199254740993".toList ∧
      Dbl.geNat (Dbl.ofNat (2 ^ 64)) 9007199254740993 = true ∧
      my_get_number (decimal 9007199254740993) (Dbl.ofNat (2 ^ 64)) false
        = (1, some 9007199254740992) := by
  decide!

/-- C3 (amended): for every 64-bit value `v` that binary64 holds exactly (at
most 53 significant bits, so every `v` up to 2^53), and both flag settings,
the decimal digit string of `v` parses to exactly `v` under every ceiling of
at least `v`. -/
theorem raw_round_trip (v : Nat) (bytesflag : Bool) (max : Dbl) (hv : v < 2 ^ 64)
    (hr : Representable v) (hmax : Dbl.geNat max v = true) :
    my_get_number (decimal v) max bytesflag = (1, some v) := by
  obtain ⟨hne, hdig, hval⟩ := decimal_spec v
  have hu : ([] : List Char) ∈ unitPrefixes := by decide
  have hm : prefixMultiplier [] = 1 := by decide
  have e : decimal v = numberText (decimal v) none [] false := by simp [numberText]
  rw [e, whole_number_value (decimal v) [] false bytesflag max hne hdig hu (by simp)
    (by rw [hval]; exact hv) (by rw [hval]; exact hr) (by rw [hval, hm, Nat.mul_one]; exact hr)]
  rw [hval, hm, Nat.mul_one, if_neg (by rw [gt_false_of_geNat max v hmax]; simp),
    toU64_exact v hv]

theorem raw_round_trip_witness :
    my_get_number (decimal 4096) (Dbl.ofNat 5000) true = (1, some 4096) :=
  raw_round_trip 4096 true (Dbl.ofNat 5000) (by norm_num)
    ⟨1, 12, by norm_num, by norm_num, by norm_num⟩ (by decide!)

/-- C4: a whole number `n` with a unit prefix of multiplier `m`, and a `B`
behind it only under the byte flag: when `n * m` is below 2^64, exactly
representable (`n * 5 ^ e < 2 ^ 53` for the multiplier `10 ^ e`, `n < 2 ^ 53`
for a binary multiplier or none) and at most the ceiling, the function
succeeds with exactly `n * m`, with or without the `B`. -/
theorem whole_number_exact (ds u : List Char) (withB bytesflag : Bool) (max : Dbl)
    (hds : ds ≠ []) (hd : ∀ c ∈ ds, isDigit c = true) (hu : u ∈ unitPrefixes)
    (hB : withB = true → bytesflag = true)
    (hlt : natOfDigits ds * prefixMultiplier u < 2 ^ 64)
    (hex : natOfDigits ds * fivePart u < 2 ^ 53)
    (hmax : Dbl.geNat max (natOfDigits ds * prefixMultiplier u) = true) :
    my_get_number (numberText ds none u withB) max bytesflag
        = (1, some (natOfDigits ds * prefixMultiplier u)) ∧
      (bytesflag = true → my_get_number (numberText ds none u true) max bytesflag
        = my_get_number (numberText ds none u false) max bytesflag) := by
  obtain ⟨hn, _, hnm⟩ := exact_product _ u hu hex
  have key : ∀ w : Bool, (w = true → bytesflag = true) →
      my_get_number (numberText ds none u w) max bytesflag
        = (1, some (natOfDigits ds * prefixMultiplier u)) := by
    intro w hw
    rw [whole_number_value ds u w bytesflag max hds hd hu hw (lt_of_exact _ u hu hex) hn hnm,
      if_neg (by rw [gt_false_of_geNat max _ hmax]; simp), toU64_exact _ hlt]
  exact ⟨key withB hB, fun hb => by rw [key true (fun _ => hb), key false (by simp)]⟩

theorem whole_number_exact_witness :
    (my_get_number "0".toList (Dbl.ofNat 0) false = (1, some 0) ∧
      my_get_number "1Ki".toList (Dbl.ofNat 5000) false = (1, some 1024) ∧
      my_get_number "1Ki".toList (Dbl.ofNat 5000) true = (1, some 1024)) ∧
    (my_get_number "1KiB".toList (Dbl.ofNat 5000) true = (1, some 1024) ∧
      (true = true → my_get_number (numberText "1".toList none "Ki".toList true) (Dbl.ofNat 5000) true
        = my_get_number (numberText "1".toList none "Ki".toList false) (Dbl.ofNat 5000) true)) :=
  ⟨by decide!, whole_number_exact "1".toList "Ki".toList true true (Dbl.ofNat 5000) (by decide)
    (by decide) (by decide) (by simp) (by decide) (by decide) (by decide!)⟩

theorem getLast_unit : ∀ u ∈ unitPrefixes, u ≠ [] → u.getLast? ≠ some 'B' := by
  decide

theorem getLast_digits (ds : List Char) (hd : ∀ c ∈ ds, isDigit c = true) :
    ds.getLast? ≠ some 'B' := by
  intro h
  have hm : 'B' ∈ ds := List.mem_of_getLast?_eq_some h
  exact absurd (hd _ hm) (by decide)

/-- C10: with the byte flag off every text that ends in `B` is malformed,
whatever the ceiling; with the byte flag on, a numeric part followed by a
unit prefix and one `B` is not malformed. -/
theorem byte_marker_needs_flag (str ip : List Char) (fp : Option (List Char)) (u : List Char)
    (max : Dbl) :
    (NUL ∉ str → str.getLast? = some 'B' → (my_get_number str max false).1 = -1) ∧
    ((∀ c ∈ ip, isDigit c = true) →
      (∀ f, fp = some f → (∀ c ∈ f, isDigit c = true) ∧ f ≠ []) → (fp = none → ip ≠ []) →
      u ∈ unitPrefixes → (my_get_number (numberText ip fp u true) max true).1 ≠ -1) := by
  constructor
  · intro hn hlast
    rw [malformed_iff str max false hn]
    rintro ⟨ip, fp, suf, hip, hfp, hv, h⟩
    have hs : suf ∈ unitPrefixes := by
      rcases hv with hv | ⟨hb, _⟩
      · exact hv
      · exact absurd hb (by simp)
    by_cases he : suf = []
    · subst he
      rcases h with ⟨rfl, _⟩ | ⟨rfl, hne⟩
      · rw [List.append_nil] at hlast
        exact getLast_digits _ hip hlast
      · rw [List.append_nil, List.getLast?_append_of_ne_nil _ (by simp)] at hlast
        cases fp with
        | nil => exact hne rfl
        | cons c cs =>
          rw [List.getLast?_cons_cons] at hlast
          exact getLast_digits _ hfp hlast
    · rcases h with ⟨rfl, _⟩ | ⟨rfl, _⟩
      · rw [List.getLast?_append_of_ne_nil _ he] at hlast
        exact getLast_unit suf hs he hlast
      · rw [List.getLast?_append_of_ne_nil _ he] at hlast
        exact getLast_unit suf hs he hlast
  · intro hip hfp hne hu
    rw [my_get_number_text ip fp u true true max hip hfp hne hu (by simp),
      finish_valid _ _ _ u true true max hu (by simp)]
    split_ifs <;> simp

theorem byte_marker_needs_flag_witness :
    ((my_get_number "1KiB".toList (Dbl.ofNat 5000) false).1 = -1 ∧
      (my_get_number "1B".toList (Dbl.ofNat 5000) false).1 = -1 ∧
      (my_get_number "1kB".toList (Dbl.ofNat 5000) false).1 = -1) ∧
    (my_get_number (numberText "1".toList none "Ki".toList true) (Dbl.ofNat 5000) true).1 ≠ -1 :=
  ⟨⟨(byte_marker_needs_flag "1KiB".toList [] none [] (Dbl.ofNat 5000)).1 (by decide) (by decide),
    (byte_marker_needs_flag "1B".toList [] none [] (Dbl.ofNat 5000)).1 (by decide) (by decide),
    (byte_marker_needs_flag "1kB".toList [] none [] (Dbl.ofNat 5000)).1 (by decide) (by decide)⟩,
   (byte_marker_needs_flag [] "1".toList none "Ki".toList (Dbl.ofNat 5000)).2 (by decide)
    (by simp) (by simp) (by decide)⟩

/-! ## Path components: the loops as list operations -/

theorem take_succ_charAt (p : List Char) (e : Nat) (h : e < p.length) :
    p.take (e + 1) = p.take e ++ [charAt p e] := by
  rw [List.take_succ]
  simp [charAt, List.getD_eq_getElem?_getD, List.getElem?_eq_getElem h]

theorem stripKeepFirst_concat_slash (xs : List Char) (h : xs ≠ []) :
    stripKeepFirst (xs ++ ['/']) = stripKeepFirst xs := by
  cases xs with
  | nil => exact absurd rfl h
  | cons c t =>
    simp only [List.cons_append, stripKeepFirst]
    rw [List.rdropWhile_concat_pos _ _ _ (by simp)]

theorem stripKeepFirst_concat_other (xs : List Char) (y : Char) (h : y ≠ '/') :
    stripKeepFirst (xs ++ [y]) = xs ++ [y] := by
  cases xs with
  | nil => simp [stripKeepFirst]
  | cons c t =>
    simp only [List.cons_append, stripKeepFirst]
    rw [List.rdropWhile_concat_neg _ _ _ (by simpa using h)]

theorem stripSlashes_le (p : List Char) (e : Nat) : stripSlashes p e ≤ e := by
  induction e with
  | zero => simp [stripSlashes]
  | succ e ih =>
    unfold stripSlashes
    split_ifs
    · omega
    · omega

/-- The first loop leaves `endp` on the last character of the path stripped
of its trailing slashes. -/
theorem take_stripSlashes (p : List Char) (e : Nat) (h : e < p.length) :
    p.take (stripSlashes p e + 1) = stripKeepFirst (p.take (e + 1)) := by
  induction e with
  | zero =>
    cases p with
    | nil => simp at h
    | cons c t => simp [stripSlashes, stripKeepFirst]
  | succ e ih =>
    have hne : p.take (e + 1) ≠ [] := by
      cases p with
      | nil => simp at h
      | cons c t => simp
    rw [take_succ_charAt p (e + 1) h]
    unfold stripSlashes
    by_cases hc : charAt p (e + 1) = '/'
    · rw [if_pos hc, hc, stripKeepFirst_concat_slash _ hne]
      exact ih (by omega)
    · rw [if_neg hc, stripKeepFirst_concat_other _ _ hc, ← take_succ_charAt p (e + 1) h]

theorem charAt_stripSlashes (p : List Char) (e : Nat) (h : 0 < stripSlashes p e) :
    charAt p (stripSlashes p e) ≠ '/' := by
  induction e with
  | zero => simp [stripSlashes] at h
  | succ e ih =>
    unfold stripSlashes at h ⊢
    by_cases hc : charAt p (e + 1) = '/'
    · rw [if_pos hc] at h ⊢
      exact ih h
    · rw [if_neg hc]
      exact hc

theorem findDir_le (p : List Char) (e : Nat) : findDir p e ≤ e := by
  induction e with
  | zero => simp [findDir]
  | succ e ih =>
    unfold findDir
    split_ifs
    · omega
    · omega

/-- The second loop of `bsd_dirname` leaves `endp` on the last slash, or on
the first character. -/
theorem findDir_eq (p : List Char) (e : Nat) (h : e < p.length) :
    findDir p e = ((p.take (e + 1)).rdropWhile (fun x => x ≠ '/')).length - 1 := by
  induction e with
  | zero =>
    cases p with
    | nil => simp at h
    | cons c t =>
      simp only [findDir, List.take_succ_cons, List.take_zero, List.rdropWhile_singleton]
      split_ifs <;> simp
  | succ e ih =>
    rw [take_succ_charAt p (e + 1) h]
    unfold findDir
    by_cases hc : charAt p (e + 1) = '/'
    · rw [if_neg (by simpa using hc), List.rdropWhile_concat_neg _ _ _ (by simpa using hc)]
      simp [List.length_take]
      omega
    · rw [if_pos hc, List.rdropWhile_concat_pos _ _ _ (by simpa using hc)]
      exact ih (by omega)

theorem findBase_le (p : List Char) (e : Nat) : findBase p e ≤ e := by
  induction e with
  | zero => simp [findBase]
  | succ e ih =>
    unfold findBase
    split_ifs
    · omega
    · omega

/-- The loop of `bsd_basename` leaves `startp` right behind the last slash in
front of `endp`. -/
theorem findBase_eq (p : List Char) (e : Nat) (h : e ≤ p.length) :
    findBase p e = ((p.take e).rdropWhile (fun x => x ≠ '/')).length := by
  induction e with
  | zero => simp [findBase]
  | succ e ih =>
    rw [take_succ_charAt p e (by omega)]
    unfold findBase
    by_cases hc : charAt p e = '/'
    · rw [if_neg (by simpa using hc), List.rdropWhile_concat_neg _ _ _ (by simpa using hc)]
      simp [List.length_take]
      omega
    · rw [if_pos hc, List.rdropWhile_concat_pos _ _ _ (by simpa using hc)]
      exact ih (by omega)

theorem rdropWhile_append_rtakeWhile (q : Char → Bool) (l : List Char) :
    l.rdropWhile q ++ l.rtakeWhile q = l := by
  unfold List.rdropWhile List.rtakeWhile
  rw [← List.reverse_append, List.takeWhile_append_dropWhile, List.reverse_reverse]

theorem rdropWhile_cons (q : Char → Bool) (c : Char) (cs : List Char) :
    (c :: cs).rdropWhile q =
      if cs.rdropWhile q = [] ∧ q c = true then [] else c :: cs.rdropWhile q := by
  induction cs using List.reverseRecOn with
  | nil =>
    rw [List.rdropWhile_singleton]
    by_cases h : q c = true <;> simp [h]
  | append_singleton ds y ih =>
    by_cases hy : q y = true
    · rw [← List.cons_append, List.rdropWhile_concat_pos _ _ _ hy,
        List.rdropWhile_concat_pos _ _ _ hy]
      exact ih
    · rw [← List.cons_append, List.rdropWhile_concat_neg _ _ _ hy,
        List.rdropWhile_concat_neg _ _ _ hy]
      simp

theorem take_findDir (p : List Char) (e : Nat) (h : e < p.length) :
    p.take (findDir p e) = beforeLastSlash (p.take (e + 1)) := by
  unfold beforeLastSlash
  have hpre : ((p.take (e + 1)).rdropWhile (fun x => x ≠ '/')).dropLast <+: p :=
    List.IsPrefix.trans (List.IsPrefix.trans ( List.dropLast_prefix _) ( List.rdropWhile_prefix _ _)) ( List.take_prefix _ _)
  rw [List.prefix_iff_eq_take.1 hpre, List.length_dropLast, ← findDir_eq p e h]

theorem findDir_spec (p : List Char) (e : Nat) (h : e < p.length) :
    (charAt p (findDir p e) = '/' ∧ '/' ∈ p.take (e + 1)) ∨
      (findDir p e = 0 ∧ '/' ∉ p.take (e + 1)) := by
  induction e with
  | zero =>
    rw [take_succ_charAt p 0 h]
    by_cases hc : charAt p 0 = '/'
    · left; simp [findDir, hc]
    · right
      simp only [findDir, List.take_zero, List.nil_append, List.mem_singleton, true_and]
      exact fun h => hc h.symm
  | succ e ih =>
    rw [take_succ_charAt p (e + 1) h]
    unfold findDir
    by_cases hc : charAt p (e + 1) = '/'
    · left
      rw [if_neg (by simpa using hc)]
      simp [hc]
    · rw [if_pos hc]
      rcases ih (by omega) with ⟨h1, h2⟩ | ⟨h1, h2⟩
      · left
        exact ⟨h1, List.mem_append_left _ h2⟩
      · right
        refine ⟨h1, ?_⟩
        intro hm
        rcases List.mem_append.1 hm with hm | hm
        · exact h2 hm
        · simp only [List.mem_singleton] at hm
          exact hc hm.symm

theorem charAt_zero_ne_NUL {p : List Char} (hne : p ≠ []) (hn : NUL ∉ p) : charAt p 0 ≠ NUL := by
  cases p with
  | nil => exact absurd rfl hne
  | cons c t =>
    intro h
    simp only [charAt, List.getD_cons_zero] at h
    exact hn (by simp [h])

theorem stripKeepFirst_eq_take (p : List Char) (hne : p ≠ []) :
    stripKeepFirst p = p.take (stripSlashes p (p.length - 1) + 1) := by
  have hl : 0 < p.length := List.length_pos.2 hne
  rw [take_stripSlashes p (p.length - 1) (by omega)]
  have e : p.length - 1 + 1 = p.length := by omega
  rw [e, List.take_length]

/-- The value of `bsd_dirname` on a non-empty path: the reference `dirname`,
written without a length check when the second loop ends on the first
character, and under the check `endp - path + 2 > PATH_MAX` otherwise. -/
theorem bsd_dirname_value (PATH_MAX : Nat) (p : List Char) (hne : p ≠ []) (hn : NUL ∉ p) :
    (findDir p (stripSlashes p (p.length - 1)) = 0 →
      bsd_dirname PATH_MAX (some p) = some (dirnameRef (some p)) ∧
        (dirnameRef (some p)).length = 1) ∧
    (findDir p (stripSlashes p (p.length - 1)) ≠ 0 →
      bsd_dirname PATH_MAX (some p) =
        if (dirnameRef (some p)).length + 1 ≤ PATH_MAX then some (dirnameRef (some p))
        else none) := by
  have hl : 0 < p.length := List.length_pos.2 hne
  have hE : stripSlashes p (p.length - 1) < p.length :=
    lt_of_le_of_lt (stripSlashes_le p _) (by omega)
  have hs := stripKeepFirst_eq_take p hne
  have hF := findDir_le p (stripSlashes p (p.length - 1))
  have hb := take_findDir p _ hE
  rw [← hs] at hb
  have hspec := findDir_spec p _ hE
  rw [← hs] at hspec
  have h0 : charAt p 0 ∈ stripKeepFirst p := by
    cases p with
    | nil => exact absurd rfl hne
    | cons c t => simp [stripKeepFirst, charAt]
  simp only [dirnameRef, if_neg hne]
  simp only [bsd_dirname]
  rw [if_neg (charAt_zero_ne_NUL hne hn)]
  constructor
  · intro hz
    rw [if_pos hz]
    rw [hz, List.take_zero] at hb
    rcases hspec with ⟨h1, h2⟩ | ⟨_, h2⟩
    · rw [hz] at h1
      rw [if_pos h1, if_neg (not_not_intro h2), if_pos hb.symm]
      exact ⟨rfl, rfl⟩
    · have hc : charAt p 0 ≠ '/' := fun h => h2 (h ▸ h0)
      rw [if_neg hc, if_pos h2]
      exact ⟨rfl, rfl⟩
  · intro hz
    rw [if_neg hz]
    rcases hspec with ⟨_, h2⟩ | ⟨h1, _⟩
    · have hbne : beforeLastSlash (stripKeepFirst p) ≠ [] := by
        rw [← hb]
        intro h
        have h3 := congrArg List.length h
        rw [List.length_take, List.length_nil] at h3
        omega
      have hk := take_stripSlashes p (findDir p (stripSlashes p (p.length - 1)) - 1)
        (by omega)
      have e : findDir p (stripSlashes p (p.length - 1)) - 1 + 1
          = findDir p (stripSlashes p (p.length - 1)) := by omega
      rw [e, hb] at hk
      rw [if_neg (not_not_intro h2), if_neg hbne, ← hk, List.length_take]
      have hle := stripSlashes_le p (findDir p (stripSlashes p (p.length - 1)) - 1)
      by_cases hfit : stripSlashes p (findDir p (stripSlashes p (p.length - 1)) - 1) + 2
          > PATH_MAX
      · rw [if_pos hfit, if_neg (by omega)]
      · rw [if_neg hfit, if_pos (by omega)]
    · exact absurd h1 hz

/-- When its result fits, `bsd_dirname` returns the reference `dirname`. -/
theorem bsd_dirname_fits (PATH_MAX : Nat) (path : Option (List Char))
    (hn : ∀ p, path = some p → NUL ∉ p) (hfit : (dirnameRef path).length + 1 ≤ PATH_MAX) :
    bsd_dirname PATH_MAX path = some (dirnameRef path) := by
  cases path with
  | none => rfl
  | some p =>
    by_cases hne : p = []
    · subst hne
      simp [bsd_dirname, dirnameRef, charAt]
    · obtain ⟨h1, h2⟩ := bsd_dirname_value PATH_MAX p hne (hn p rfl)
      by_cases hz : findDir p (stripSlashes p (p.length - 1)) = 0
      · exact (h1 hz).1
      · rw [h2 hz, if_pos hfit]

/-- Whatever `bsd_dirname` returns is the reference `dirname`. -/
theorem bsd_dirname_some (PATH_MAX : Nat) (path : Option (List Char)) (r : List Char)
    (hn : ∀ p, path = some p → NUL ∉ p) (h : bsd_dirname PATH_MAX path = some r) :
    r = dirnameRef path := by
  cases path with
  | none => simpa [bsd_dirname, dirnameRef] using h.symm
  | some p =>
    by_cases hne : p = []
    · subst hne
      simpa [bsd_dirname, dirnameRef, charAt] using h.symm
    · obtain ⟨h1, h2⟩ := bsd_dirname_value PATH_MAX p hne (hn p rfl)
      by_cases hz : findDir p (stripSlashes p (p.length - 1)) = 0
      · rw [(h1 hz).1] at h
        exact (Option.some.inj h).symm
      · rw [h2 hz] at h
        by_cases hfit : (dirnameRef (some p)).length + 1 ≤ PATH_MAX
        · rw [if_pos hfit] at h
          exact (Option.some.inj h).symm
        · rw [if_neg hfit] at h
          exact absurd h (by simp)

/-- When its result does not fit, `bsd_dirname` fails. -/
theorem bsd_dirname_none (PATH_MAX : Nat) (path : Option (List Char)) (hP : 2 ≤ PATH_MAX)
    (hn : ∀ p, path = some p → NUL ∉ p) (hfit : ¬ (dirnameRef path).length + 1 ≤ PATH_MAX) :
    bsd_dirname PATH_MAX path = none := by
  cases path with
  | none => exact absurd (by simpa [dirnameRef] using hP) hfit
  | some p =>
    by_cases hne : p = []
    · subst hne
      exact absurd (by simpa [dirnameRef] using hP) hfit
    · obtain ⟨h1, h2⟩ := bsd_dirname_value PATH_MAX p hne (hn p rfl)
      by_cases hz : findDir p (stripSlashes p (p.length - 1)) = 0
      · exact absurd (by rw [(h1 hz).2]; exact hP) hfit
      · rw [h2 hz, if_neg hfit]

/-- C7: `bsd_dirname` computes the reference `dirname`: "." for a null or
empty path; otherwise, with `s` the path without its trailing slashes (the
first character kept), "." when `s` has no slash, "/" when the last slash of
`s` is its first character, and else the part of `s` before its last slash
without the slashes at its end (the first character kept). -/
theorem bsd_dirname_eq_ref (PATH_MAX : Nat) (path : Option (List Char))
    (hn : ∀ p, path = some p → NUL ∉ p) (hfit : (dirnameRef path).length + 1 ≤ PATH_MAX) :
    bsd_dirname PATH_MAX path = some (dirnameRef path) :=
  bsd_dirname_fits PATH_MAX path hn hfit

theorem bsd_dirname_eq_ref_witness :
    bsd_dirname 4096 (some "a//b".toList) = some (dirnameRef (some "a//b".toList)) ∧
      dirnameRef (some "a//b".toList) = "a".toList ∧
      dirnameRef (some "/a/b".toList) = "/a".toList ∧ dirnameRef (some "a".toList) = ".".toList ∧
      dirnameRef (some "/a".toList) = "/".toList :=
  ⟨bsd_dirname_eq_ref 4096 (some "a//b".toList) (by simp; decide) (by decide),
    by decide, by decide, by decide, by decide⟩

theorem all_slash_iff (p : List Char) (hne : p ≠ []) :
    (stripSlashes p (p.length - 1) = 0 ∧ charAt p 0 = '/') ↔
      p.all (fun x => x = '/') = true := by
  have hl : 0 < p.length := List.length_pos.2 hne
  have hE : stripSlashes p (p.length - 1) < p.length :=
    lt_of_le_of_lt (stripSlashes_le p _) (by omega)
  have hs := congrArg List.length (stripKeepFirst_eq_take p hne)
  rw [List.length_take] at hs
  cases p with
  | nil => exact absurd rfl hne
  | cons c t =>
    simp only [stripKeepFirst, List.length_cons] at hs
    have hlen : (List.rdropWhile (fun x => decide (x = '/')) t).length
        = stripSlashes (c :: t) ((c :: t).length - 1) := by
      simp only [List.length_cons] at hE ⊢
      omega
    have hnil : List.rdropWhile (fun x => decide (x = '/')) t = [] ↔ ∀ x ∈ t, x = '/' := by
      rw [List.rdropWhile_eq_nil_iff]
      simp
    rw [← hlen, List.length_eq_zero, hnil]
    simp only [charAt, List.getD_cons_zero, List.all_cons, Bool.and_eq_true, decide_eq_true_eq,
      List.all_eq_true]
    tauto

/-- The value of `bsd_basename` on a non-empty path: "/" without a length
check for a path of slashes, and otherwise the reference `basename`, not empty
and free of slashes, under the check `endp - startp + 2 > PATH_MAX`. -/
theorem bsd_basename_value (PATH_MAX : Nat) (p : List Char) (hne : p ≠ []) (hn : NUL ∉ p) :
    (p.all (fun x => x = '/') = true →
      bsd_basename PATH_MAX (some p) = some ['/'] ∧ basenameRef (some p) = ['/']) ∧
    (p.all (fun x => x = '/') = false →
      bsd_basename PATH_MAX (some p) =
        (if (basenameRef (some p)).length + 1 ≤ PATH_MAX then some (basenameRef (some p))
         else none) ∧
      basenameRef (some p) ≠ [] ∧ '/' ∉ basenameRef (some p)) := by
  have hl : 0 < p.length := List.length_pos.2 hne
  have hE : stripSlashes p (p.length - 1) < p.length :=
    lt_of_le_of_lt (stripSlashes_le p _) (by omega)
  have hall := all_slash_iff p hne
  constructor
  · intro ha
    have hc := hall.2 ha
    simp only [bsd_basename, basenameRef, if_neg hne, if_pos ha]
    rw [if_neg (charAt_zero_ne_NUL hne hn), hc.1, if_pos ⟨rfl, hc.2⟩]
    exact ⟨rfl, trivial⟩
  · intro hfalse
    have ha : ¬ p.all (fun x => x = '/') = true := by rw [hfalse]; simp
    have hcode : ¬ (stripSlashes p (p.length - 1) = 0 ∧
        charAt p (stripSlashes p (p.length - 1)) = '/') := by
      intro h
      apply ha
      apply hall.1
      exact ⟨h.1, by rw [← h.1]; exact h.2⟩
    have hlast : charAt p (stripSlashes p (p.length - 1)) ≠ '/' := by
      by_cases h0 : stripSlashes p (p.length - 1) = 0
      · exact fun h => hcode ⟨h0, h⟩
      · exact charAt_stripSlashes p _ (by omega)
    have hs : p.rdropWhile (fun x => x = '/') = p.take (stripSlashes p (p.length - 1) + 1) := by
      rw [← stripKeepFirst_eq_take p hne]
      cases p with
      | nil => exact absurd rfl hne
      | cons c t =>
        rw [rdropWhile_cons, stripKeepFirst, if_neg]
        rintro ⟨h1, h2⟩
        apply ha
        rw [List.rdropWhile_eq_nil_iff] at h1
        simp only [List.all_cons, Bool.and_eq_true, List.all_eq_true]
        exact ⟨h2, h1⟩
    have hB := findBase_le p (stripSlashes p (p.length - 1))
    have hres : (p.rdropWhile (fun x => x = '/')).rtakeWhile (fun x => x ≠ '/') =
        (p.drop (findBase p (stripSlashes p (p.length - 1)))).take
          (stripSlashes p (p.length - 1) - findBase p (stripSlashes p (p.length - 1)) + 1) := by
      have hsplit := rdropWhile_append_rtakeWhile (fun x => x ≠ '/')
        (p.rdropWhile (fun x => x = '/'))
      have hd : (p.rdropWhile (fun x => x = '/')).rdropWhile (fun x => x ≠ '/') =
          (p.take (stripSlashes p (p.length - 1))).rdropWhile (fun x => x ≠ '/') := by
        rw [hs, take_succ_charAt p _ hE,
          List.rdropWhile_concat_pos _ _ _ (by simpa using hlast)]
      have hlen := findBase_eq p (stripSlashes p (p.length - 1)) (by omega)
      rw [← hd] at hlen
      have h2 := congrArg (List.drop (findBase p (stripSlashes p (p.length - 1)))) hsplit
      rw [hlen, List.drop_left, ← hlen, hs, List.drop_take] at h2
      rw [hs, h2]
      congr 1
      omega
    have hrl : ((p.drop (findBase p (stripSlashes p (p.length - 1)))).take
          (stripSlashes p (p.length - 1) - findBase p (stripSlashes p (p.length - 1)) + 1)).length
        = stripSlashes p (p.length - 1) - findBase p (stripSlashes p (p.length - 1)) + 1 := by
      rw [List.length_take, List.length_drop]
      omega
    simp only [basenameRef, if_neg hne, hfalse]
    simp only [Bool.false_eq_true, if_false]
    refine ⟨?_, ?_, ?_⟩
    · simp only [bsd_basename]
      rw [if_neg (charAt_zero_ne_NUL hne hn), if_neg hcode, hres, hrl]
      by_cases hfit : stripSlashes p (p.length - 1) - findBase p (stripSlashes p (p.length - 1)) + 2
          > PATH_MAX
      · rw [if_pos hfit, if_neg (by omega)]
      · rw [if_neg hfit, if_pos (by omega)]
    · rw [hres]
      intro h
      have := congrArg List.length h
      rw [hrl] at this
      simp at this
    · intro hm
      have := List.mem_rtakeWhile_imp hm
      simp at this

/-- When its result fits, `bsd_basename` returns the reference `basename`. -/
theorem bsd_basename_fits (PATH_MAX : Nat) (path : Option (List Char))
    (hn : ∀ p, path = some p → NUL ∉ p) (hfit : (basenameRef path).length + 1 ≤ PATH_MAX) :
    bsd_basename PATH_MAX path = some (basenameRef path) := by
  cases path with
  | none => rfl
  | some p =>
    by_cases hne : p = []
    · subst hne
      simp [bsd_basename, basenameRef, charAt]
    · obtain ⟨h1, h2⟩ := bsd_basename_value PATH_MAX p hne (hn p rfl)
      cases ha : p.all (fun x => x = '/') with
      | true => rw [(h1 ha).1, (h1 ha).2]
      | false => rw [(h2 ha).1, if_pos hfit]

/-- Whatever `bsd_basename` returns is the reference `basename`. -/
theorem bsd_basename_some (PATH_MAX : Nat) (path : Option (List Char)) (r : List Char)
    (hn : ∀ p, path = some p → NUL ∉ p) (h : bsd_basename PATH_MAX path = some r) :
    r = basenameRef path := by
  cases path with
  | none => simpa [bsd_basename, basenameRef] using h.symm
  | some p =>
    by_cases hne : p = []
    · subst hne
      simpa [bsd_basename, basenameRef, charAt] using h.symm
    · obtain ⟨h1, h2⟩ := bsd_basename_value PATH_MAX p hne (hn p rfl)
      cases ha : p.all (fun x => x = '/') with
      | true =>
        rw [(h1 ha).1] at h
        rw [(h1 ha).2]
        exact (Option.some.inj h).symm
      | false =>
        rw [(h2 ha).1] at h
        by_cases hfit : (basenameRef (some p)).length + 1 ≤ PATH_MAX
        · rw [if_pos hfit] at h
          exact (Option.some.inj h).symm
        · rw [if_neg hfit] at h
          exact absurd h (by simp)

/-- When its result does not fit, `bsd_basename` fails. -/
theorem bsd_basename_none (PATH_MAX : Nat) (path : Option (List Char)) (hP : 2 ≤ PATH_MAX)
    (hn : ∀ p, path = some p → NUL ∉ p) (hfit : ¬ (basenameRef path).length + 1 ≤ PATH_MAX) :
    bsd_basename PATH_MAX path = none := by
  cases path with
  | none => exact absurd (by simpa [basenameRef] using hP) hfit
  | some p =>
    by_cases hne : p = []
    · subst hne
      exact absurd (by simpa [basenameRef] using hP) hfit
    · obtain ⟨h1, h2⟩ := bsd_basename_value PATH_MAX p hne (hn p rfl)
      cases ha : p.all (fun x => x = '/') with
      | true => exact absurd (by rw [(h1 ha).2]; exact hP) hfit
      | false => rw [(h2 ha).1, if_neg hfit]

/-- C6: `bsd_basename` computes the reference `basename`: "." for a null or
empty path, "/" for a path of slashes only, and otherwise what follows the
last slash of the path without its trailing slashes, which is not empty and
holds no slash. -/
theorem bsd_basename_eq_ref (PATH_MAX : Nat) (path : Option (List Char))
    (hn : ∀ p, path = some p → NUL ∉ p) (hfit : (basenameRef path).length + 1 ≤ PATH_MAX) :
    bsd_basename PATH_MAX path = some (basenameRef path) ∧
      (∀ p, path = some p → p ≠ [] → p.all (fun x => x = '/') = false →
        basenameRef path ≠ [] ∧ '/' ∉ basenameRef path) := by
  refine ⟨bsd_basename_fits PATH_MAX path hn hfit, fun p hp hne ha => ?_⟩
  subst hp
  exact ((bsd_basename_value PATH_MAX p hne (hn p rfl)).2 ha).2

theorem bsd_basename_eq_ref_witness :
    (bsd_basename 4096 (some "/a/b/".toList) = some (basenameRef (some "/a/b/".toList)) ∧
      (∀ p, some "/a/b/".toList = some p → p ≠ [] → p.all (fun x => x = '/') = false →
        basenameRef (some "/a/b/".toList) ≠ [] ∧ '/' ∉ basenameRef (some "/a/b/".toList))) ∧
      basenameRef (some "/a/b/".toList) = "b".toList ∧
      basenameRef (some "///".toList) = "/".toList :=
  ⟨bsd_basename_eq_ref 4096 (some "/a/b/".toList) (by simp; decide) (by decide),
    by decide, by decide⟩

/-- C5 (failing input): on "a//b" `dirname_inplace` leaves "a/" in the buffer
while `bsd_dirname` writes "a"; on "/a/b/" and on the empty path the two
agree. -/
theorem dirname_inplace_keeps_slash :
    dirname_inplace (some "a//b".toList) = some "a/".toList ∧
      bsd_dirname 4096 (some "a//b".toList) = some "a".toList ∧
      dirname_inplace (some "/a/b/".toList) = bsd_dirname 4096 (some "/a/b/".toList) ∧
      dirname_inplace (some []) = bsd_dirname 4096 (some []) := by
  decide

/-! ## print_number -/

theorem padLeft_length (w : Nat) (t : List Char) (h : t.length ≤ w) :
    (padLeft w t).length = w := by
  simp only [padLeft, List.length_append, List.length_replicate]
  omega

theorem decimal_length_le (n e : Nat) (h : n < 10 ^ e) (he : 0 < e) : (decimal n).length ≤ e :=
  Nat.toDigitsCore_length 10 (by norm_num) (n + 1) n e h he

/-- C8 (counterexample): in Raw mode with the narrow field the value 2^32 is
printed as 0. -/
theorem narrow_field_truncates :
    print_number 0 (fun _ => []) (fun _ => []) none none (2 ^ 32) true false true
        = "         0".toList ∧
      decimal (2 ^ 32) = "4294967296".toList := by
  decide

/-- C8 (amended): with the wide field for every value, and with the narrow
field for every value below 2^32, the integer `print_number` writes in Raw
mode, and the one it writes in parentheses behind the scaled value in the two
Long modes, is the decimal representation of the value, right-justified in a
field of width 10 (narrow) or 20 (wide). -/
theorem exact_integer_field (humode : Nat) (convertToIec convertToSi : Nat → List Char)
    (pfx sfx : Option (List Char)) (number : Nat) (mode32 bytesflag : Bool)
    (hv : mode32 = true → number < 2 ^ 32) :
    natOfDigits (decimal number) = number ∧
    (humode = 0 →
      print_number humode convertToIec convertToSi pfx sfx number mode32 bytesflag true
      = pfx.getD [] ++ (List.replicate ((if mode32 then 10 else 20) - (decimal number).length) ' '
        ++ decimal number) ++ sfx.getD []) ∧
    (humode = 3 ∨ humode = 4 →
      print_number humode convertToIec convertToSi pfx sfx number mode32 bytesflag true
      = pfx.getD [] ++ (numberField (humode - 2) convertToIec convertToSi number mode32 bytesflag true
        ++ (" (".toList ++ (List.replicate ((if mode32 then 10 else 20) - (decimal number).length) ' '
        ++ decimal number) ++ ")".toList)) ++ sfx.getD []) := by
  have hmod : mode32 = true → number % 4294967296 = number :=
    fun h => Nat.mod_eq_of_lt (by have := hv h; omega)
  have hp : ∀ field, (match pfx with | some t => t | none => []) ++ field ++
      (match sfx with | some t => t | none => []) = pfx.getD [] ++ field ++ sfx.getD [] := by
    intro field
    cases pfx <;> cases sfx <;> rfl
  refine ⟨(decimal_spec number).2.2, ?_, ?_⟩
  · intro h0
    subst h0
    unfold print_number
    rw [hp]
    cases mode32 with
    | false => simp [numberField, padLeft]
    | true => simp [numberField, padLeft, hmod rfl]
  · intro h34
    unfold print_number
    rw [hp]
    cases mode32 with
    | false => rcases h34 with h | h <;> subst h <;> simp [numberField, padLeft]
    | true => rcases h34 with h | h <;> subst h <;> simp [numberField, padLeft, hmod rfl]

theorem exact_integer_field_witness :
    print_number 3 (fun _ => "1.0Ki".toList) (fun _ => "1.0k".toList) (some "size: ".toList) none
        1024 true true true
      = "size: 1.0KiB (      1024)".toList :=
  ((exact_integer_field 3 (fun _ => "1.0Ki".toList) (fun _ => "1.0k".toList)
    (some "size: ".toList) none 1024 true true (by decide)).2.2 (Or.inl rfl)).trans (by decide)

/-- C9: in every display mode 0..4 and both field widths, when the scaled
unit string has at most 5 (binary) or 4 (decimal) characters, the text
`print_number` writes for a value is as long as the dash placeholder of the
same mode and width: 10/20, 6, 5, 19/29, 18/28. -/
theorem column_alignment (humode : Nat) (convertToIec convertToSi : Nat → List Char)
    (pfx sfx : Option (List Char)) (number : Nat) (mode32 bytesflag : Bool)
    (hm : humode ≤ 4) (hv : number < 2 ^ 64)
    (hiec : (convertToIec number).length ≤ 5) (hsi : (convertToSi number).length ≤ 4) :
    (numberField humode convertToIec convertToSi number mode32 bytesflag true).length
        = columnWidth humode mode32 ∧
      (numberField humode convertToIec convertToSi number mode32 bytesflag false).length
        = columnWidth humode mode32 ∧
      (print_number humode convertToIec convertToSi pfx sfx number mode32 bytesflag true).length
        = (print_number humode convertToIec convertToSi pfx sfx number mode32 bytesflag
            false).length := by
  have h32 : (padLeft 10 (decimal (number % 2 ^ 32))).length = 10 :=
    padLeft_length _ _ (decimal_length_le _ 10
      (lt_of_lt_of_le (Nat.mod_lt _ (by norm_num)) (by norm_num)) (by norm_num))
  have h64 : (padLeft 20 (decimal number)).length = 20 :=
    padLeft_length _ _ (decimal_length_le _ 20 (lt_of_lt_of_le hv (by norm_num)) (by norm_num))
  have h5 := padLeft_length 5 _ hiec
  have h4 := padLeft_length 4 _ hsi
  simp only [Nat.reducePow] at h32
  have hcases : humode = 0 ∨ humode = 1 ∨ humode = 2 ∨ humode = 3 ∨ humode = 4 := by omega
  have key : (numberField humode convertToIec convertToSi number mode32 bytesflag true).length
        = columnWidth humode mode32 ∧
      (numberField humode convertToIec convertToSi number mode32 bytesflag false).length
        = columnWidth humode mode32 := by
    rcases hcases with h | h | h | h | h <;> subst h <;> cases mode32 <;> cases bytesflag <;>
      simp [numberField, columnWidth, h32, h64, h5, h4]
  refine ⟨key.1, key.2, ?_⟩
  simp only [print_number, List.length_append, key.1, key.2]

theorem column_alignment_witness :
    (numberField 3 (fun _ => "1.0Ki".toList) (fun _ => "1.0k".toList) 1024 false true true).length
        = columnWidth 3 false ∧
      (numberField 3 (fun _ => "1.0Ki".toList) (fun _ => "1.0k".toList) 1024 false true false).length
        = columnWidth 3 false ∧
      (print_number 3 (fun _ => "1.0Ki".toList) (fun _ => "1.0k".toList) none none 1024 false true
        true).length
        = (print_number 3 (fun _ => "1.0Ki".toList) (fun _ => "1.0k".toList) none none 1024 false
            true false).length :=
  column_alignment 3 (fun _ => "1.0Ki".toList) (fun _ => "1.0k".toList) none none 1024 false true
    (by decide) (by norm_num) (by decide) (by decide)

/-! ## Path components: length limit, shape and algebra of the results -/

/-- C13: with `PATH_MAX` at least 2, `bsd_basename` and `bsd_dirname` succeed,
with the reference result, whenever that result has at most `PATH_MAX - 1`
characters, and fail without a result otherwise. -/
theorem length_limit (PATH_MAX : Nat) (path : Option (List Char)) (hP : 2 ≤ PATH_MAX)
    (hn : ∀ p, path = some p → NUL ∉ p) :
    ((basenameRef path).length ≤ PATH_MAX - 1 →
      bsd_basename PATH_MAX path = some (basenameRef path)) ∧
    (¬ (basenameRef path).length ≤ PATH_MAX - 1 → bsd_basename PATH_MAX path = none) ∧
    ((dirnameRef path).length ≤ PATH_MAX - 1 →
      bsd_dirname PATH_MAX path = some (dirnameRef path)) ∧
    (¬ (dirnameRef path).length ≤ PATH_MAX - 1 → bsd_dirname PATH_MAX path = none) :=
  ⟨fun h => bsd_basename_fits PATH_MAX path hn (by omega),
    fun h => bsd_basename_none PATH_MAX path hP hn (by omega),
    fun h => bsd_dirname_fits PATH_MAX path hn (by omega),
    fun h => bsd_dirname_none PATH_MAX path hP hn (by omega)⟩

theorem length_limit_witness :
    (bsd_basename 4 (some "/a/bcd".toList) = some "bcd".toList ∧
      bsd_basename 4 (some "/a/bcde".toList) = none) ∧
    (bsd_dirname 4 (some "/ab/c".toList) = some "/ab".toList ∧
      bsd_dirname 4 (some "/abc/d".toList) = none) :=
  ⟨⟨((length_limit 4 (some "/a/bcd".toList) (by decide) (by simp; decide)).1
      (by decide)).trans (by decide),
    (length_limit 4 (some "/a/bcde".toList) (by decide) (by simp; decide)).2.1 (by decide)⟩,
   ⟨((length_limit 4 (some "/ab/c".toList) (by decide) (by simp; decide)).2.2.1
      (by decide)).trans (by decide),
    (length_limit 4 (some "/abc/d".toList) (by decide) (by simp; decide)).2.2.2 (by decide)⟩⟩

/-- C14: a result of `bsd_dirname` is never empty, and it ends with a slash
only when it is exactly "/". -/
theorem dirname_no_trailing_slash (PATH_MAX : Nat) (path : Option (List Char)) (r : List Char)
    (hn : ∀ p, path = some p → NUL ∉ p) (h : bsd_dirname PATH_MAX path = some r) :
    r ≠ [] ∧ (r.getLast? = some '/' → r = ['/']) := by
  cases path with
  | none =>
    have e : r = ['.'] := by simpa [bsd_dirname] using h.symm
    subst e
    exact ⟨by simp, by decide⟩
  | some p =>
    by_cases hne : p = []
    · subst hne
      have e : r = ['.'] := by simpa [bsd_dirname, charAt] using h.symm
      subst e
      exact ⟨by simp, by decide⟩
    · have hl : 0 < p.length := List.length_pos.2 hne
      have hE := stripSlashes_le p (p.length - 1)
      have hF := findDir_le p (stripSlashes p (p.length - 1))
      simp only [bsd_dirname] at h
      rw [if_neg (charAt_zero_ne_NUL hne (hn p rfl))] at h
      by_cases hz : findDir p (stripSlashes p (p.length - 1)) = 0
      · rw [if_pos hz] at h
        by_cases hc : charAt p 0 = '/'
        · rw [if_pos hc] at h
          have e := (Option.some.inj h).symm
          subst e
          exact ⟨by simp, fun _ => rfl⟩
        · rw [if_neg hc] at h
          have e := (Option.some.inj h).symm
          subst e
          exact ⟨by simp, by decide⟩
      · rw [if_neg hz] at h
        have hle := stripSlashes_le p (findDir p (stripSlashes p (p.length - 1)) - 1)
        by_cases hfit : stripSlashes p (findDir p (stripSlashes p (p.length - 1)) - 1) + 2
            > PATH_MAX
        · rw [if_pos hfit] at h
          exact absurd h (by simp)
        · rw [if_neg hfit] at h
          have e := (Option.some.inj h).symm
          rw [take_succ_charAt p _ (by omega)] at e
          subst e
          refine ⟨by simp, fun hlast => ?_⟩
          rw [List.getLast?_concat] at hlast
          have hc : charAt p (stripSlashes p (findDir p (stripSlashes p (p.length - 1)) - 1))
              = '/' := Option.some.inj hlast
          by_cases h0 : stripSlashes p (findDir p (stripSlashes p (p.length - 1)) - 1) = 0
          · rw [h0] at hc ⊢
            rw [hc]
            rfl
          · exact absurd hc (charAt_stripSlashes p _ (by omega))

theorem dirname_no_trailing_slash_witness :
    ("a".toList ≠ [] ∧ ("a".toList.getLast? = some '/' → "a".toList = ['/'])) ∧
      bsd_dirname 4096 (some "a///b".toList) = some "a".toList ∧
      bsd_dirname 4096 (some "//a".toList) = some "/".toList :=
  ⟨dirname_no_trailing_slash 4096 (some "a///b".toList) "a".toList (by simp; decide) (by decide),
    by decide, by decide⟩

/-- C19: for a non-empty path a result of `bsd_dirname` begins with a slash
exactly when the path does; "/" and "." are fixed points. -/
theorem dirname_keeps_absoluteness (PATH_MAX : Nat) (p r : List Char) :
    (p ≠ [] → NUL ∉ p → bsd_dirname PATH_MAX (some p) = some r →
      (r.head? = some '/' ↔ p.head? = some '/')) ∧
    bsd_dirname PATH_MAX (some ['/']) = some ['/'] ∧
    bsd_dirname PATH_MAX (some ['.']) = some ['.'] := by
  refine ⟨fun hne hn h => ?_, ?_, ?_⟩
  · simp only [bsd_dirname] at h
    rw [if_neg (charAt_zero_ne_NUL hne hn)] at h
    cases p with
    | nil => exact absurd rfl hne
    | cons c cs =>
      by_cases hz : findDir (c :: cs) (stripSlashes (c :: cs) ((c :: cs).length - 1)) = 0
      · rw [if_pos hz] at h
        simp only [charAt, List.getD_cons_zero] at h
        by_cases hc : c = '/'
        · rw [if_pos hc] at h
          have e := (Option.some.inj h).symm
          subst e
          simp [hc]
        · rw [if_neg hc] at h
          have e := (Option.some.inj h).symm
          subst e
          simp only [List.head?_cons, Option.some.injEq]
          constructor
          · intro h1
            exact absurd h1 (by decide)
          · intro h1
            exact absurd h1 hc
      · rw [if_neg hz] at h
        by_cases hfit : stripSlashes (c :: cs)
            (findDir (c :: cs) (stripSlashes (c :: cs) ((c :: cs).length - 1)) - 1) + 2 > PATH_MAX
        · rw [if_pos hfit] at h
          exact absurd h (by simp)
        · rw [if_neg hfit] at h
          have e := (Option.some.inj h).symm
          subst e
          simp
  · have hz : findDir ['/'] (stripSlashes ['/'] (['/'].length - 1)) = 0 := by decide
    rw [((bsd_dirname_value PATH_MAX ['/'] (by simp) (by decide)).1 hz).1]
    decide
  · have hz : findDir ['.'] (stripSlashes ['.'] (['.'].length - 1)) = 0 := by decide
    rw [((bsd_dirname_value PATH_MAX ['.'] (by simp) (by decide)).1 hz).1]
    decide

theorem dirname_keeps_absoluteness_witness :
    ("/a".toList.head? = some '/' ↔ "/a/b".toList.head? = some '/') ∧
      ("a".toList.head? = some '/' ↔ "a/b".toList.head? = some '/') :=
  ⟨(dirname_keeps_absoluteness 4096 "/a/b".toList "/a".toList).1 (by simp) (by decide) (by decide),
    (dirname_keeps_absoluteness 4096 "a/b".toList "a".toList).1 (by simp) (by decide) (by decide)⟩

theorem basenameRef_of_component (c : List Char) (hne : c ≠ []) (hs : '/' ∉ c) :
    basenameRef (some c) = c := by
  have hall : c.all (fun x => x = '/') = false := by
    cases c with
    | nil => exact absurd rfl hne
    | cons x xs =>
      have hx : x ≠ '/' := fun h => hs (by simp [h])
      simp [hx]
  have h1 : c.rdropWhile (fun x => x = '/') = c := by
    rw [List.rdropWhile_eq_self_iff]
    intro hl h
    have hm : c.getLast hl ∈ c := List.getLast_mem hl
    have e : c.getLast hl = '/' := by simpa using h
    exact hs (e ▸ hm)
  have h2 : c.rtakeWhile (fun x => x ≠ '/') = c := by
    rw [List.rtakeWhile_eq_self_iff]
    intro x hx
    have : x ≠ '/' := fun h => hs (h ▸ hx)
    simpa using this
  simp only [basenameRef, if_neg hne, hall, h1, h2]
  simp

theorem basenameRef_no_NUL (path : Option (List Char)) (hn : ∀ p, path = some p → NUL ∉ p) :
    NUL ∉ basenameRef path := by
  cases path with
  | none => decide
  | some p =>
    simp only [basenameRef]
    split_ifs
    · decide
    · decide
    · intro h
      exact hn p rfl (List.IsPrefix.subset ( List.rdropWhile_prefix _ _)
        ((List.rtakeWhile_suffix _ _).subset h))

theorem basenameRef_idem (path : Option (List Char)) (hn : ∀ p, path = some p → NUL ∉ p) :
    basenameRef (some (basenameRef path)) = basenameRef path := by
  cases path with
  | none => decide
  | some p =>
    by_cases hne : p = []
    · subst hne
      decide
    · obtain ⟨h1, h2⟩ := bsd_basename_value 0 p hne (hn p rfl)
      cases ha : p.all (fun x => x = '/') with
      | true =>
        rw [(h1 ha).2]
        decide
      | false => exact basenameRef_of_component _ (h2 ha).2.1 (h2 ha).2.2

/-- C18: with `PATH_MAX` at least 2, `bsd_basename` is idempotent: applied to
a result of its own it succeeds and returns that result again. -/
theorem basename_idempotent (PATH_MAX : Nat) (path : Option (List Char)) (b : List Char)
    (hP : 2 ≤ PATH_MAX) (hn : ∀ p, path = some p → NUL ∉ p)
    (h : bsd_basename PATH_MAX path = some b) :
    bsd_basename PATH_MAX (some b) = some b := by
  have hb := bsd_basename_some PATH_MAX path b hn h
  have hfit : (basenameRef path).length + 1 ≤ PATH_MAX := by
    by_contra hc
    rw [bsd_basename_none PATH_MAX path hP hn hc] at h
    exact absurd h (by simp)
  have hid := basenameRef_idem path hn
  rw [← hb] at hfit hid
  have hnb : ∀ q, some b = some q → NUL ∉ q := by
    intro q hq
    have e : b = q := Option.some.inj hq
    rw [← e, hb]
    exact basenameRef_no_NUL path hn
  have := bsd_basename_fits PATH_MAX (some b) hnb (by rw [hid]; exact hfit)
  rw [hid] at this
  exact this

theorem basename_idempotent_witness :
    bsd_basename 4096 (some "b".toList) = some "b".toList :=
  basename_idempotent 4096 (some "/a/b/".toList) "b".toList (by decide) (by simp; decide)
    (by decide)

/-- C17: for a path that does not end in a slash, has no two slashes in a
row, and whose last slash is not its first character (the path is
`a ++ "/" ++ b` with `a` not empty and no slash in `b`), both results within
the length limit: `bsd_dirname` gives `a`, `bsd_basename` gives `b`, and the
directory, a slash and the base name make up the path again. -/
theorem dirname_slash_basename (PATH_MAX : Nat) (p a b : List Char)
    (hdec : p = a ++ '/' :: b) (ha : a ≠ []) (hb : '/' ∉ b)
    (hend : p.getLast? ≠ some '/') (hdbl : ¬ ['/', '/'] <:+: p) (hn : NUL ∉ p)
    (hfa : a.length + 1 ≤ PATH_MAX) (hfb : b.length + 1 ≤ PATH_MAX) :
    ∃ d c, bsd_dirname PATH_MAX (some p) = some d ∧ bsd_basename PATH_MAX (some p) = some c ∧
      d ++ '/' :: c = p ∧ d = a ∧ c = b := by
  subst hdec
  have hbne : b ≠ [] := by
    intro h
    subst h
    exact hend (by simp)
  obtain ⟨a1, y, rfl⟩ : ∃ a1 y, a = a1 ++ [y] := by
    rcases List.eq_nil_or_concat a with h | ⟨L, y, h⟩
    · exact absurd h ha
    · exact ⟨L, y, by rw [h, List.concat_eq_append]⟩
  obtain ⟨b1, z, rfl⟩ : ∃ b1 z, b = b1 ++ [z] := by
    rcases List.eq_nil_or_concat b with h | ⟨L, z, h⟩
    · exact absurd h hbne
    · exact ⟨L, z, by rw [h, List.concat_eq_append]⟩
  have hy : y ≠ '/' := by
    intro h
    subst h
    exact hdbl ⟨a1, b1 ++ [z], by simp⟩
  have hz : z ≠ '/' := fun h => hb (by simp [h])
  have hp : a1 ++ [y] ++ '/' :: (b1 ++ [z]) = (a1 ++ [y] ++ '/' :: b1) ++ [z] := by simp
  have hne : a1 ++ [y] ++ '/' :: (b1 ++ [z]) ≠ [] := by simp
  have hq : ∀ x ∈ (b1 ++ [z]).reverse, (fun x => decide (x ≠ '/')) x = true := by
    intro x hx
    have hx2 : x ∈ b1 ++ [z] := List.mem_reverse.1 hx
    have : x ≠ '/' := fun h => hb (h ▸ hx2)
    simpa using this
  have hrev : (a1 ++ [y] ++ '/' :: (b1 ++ [z])).reverse
      = (b1 ++ [z]).reverse ++ '/' :: (a1 ++ [y]).reverse := by simp
  have hbase : basenameRef (some (a1 ++ [y] ++ '/' :: (b1 ++ [z]))) = b1 ++ [z] := by
    have hall : (a1 ++ [y] ++ '/' :: (b1 ++ [z])).all (fun x => x = '/') = false := by
      simp [hz]
    have h1 : (a1 ++ [y] ++ '/' :: (b1 ++ [z])).rdropWhile (fun x => x = '/')
        = a1 ++ [y] ++ '/' :: (b1 ++ [z]) := by
      rw [hp, List.rdropWhile_concat_neg _ _ _ (by simpa using hz)]
    have h2 : (a1 ++ [y] ++ '/' :: (b1 ++ [z])).rtakeWhile (fun x => x ≠ '/') = b1 ++ [z] := by
      unfold List.rtakeWhile
      rw [hrev, List.takeWhile_append_of_pos hq, List.takeWhile_cons_of_neg (by simp)]
      simp
    simp only [basenameRef, if_neg hne, hall, h1, h2]
    simp
  have hdir : dirnameRef (some (a1 ++ [y] ++ '/' :: (b1 ++ [z]))) = a1 ++ [y] := by
    have h1 : stripKeepFirst (a1 ++ [y] ++ '/' :: (b1 ++ [z]))
        = a1 ++ [y] ++ '/' :: (b1 ++ [z]) := by
      rw [hp, stripKeepFirst_concat_other _ _ hz]
    have h2 : beforeLastSlash (a1 ++ [y] ++ '/' :: (b1 ++ [z])) = a1 ++ [y] := by
      unfold beforeLastSlash List.rdropWhile
      rw [hrev, List.dropWhile_append_of_pos hq, List.dropWhile_cons_of_neg (by simp)]
      simp
    have h3 : '/' ∈ a1 ++ [y] ++ '/' :: (b1 ++ [z]) := by simp
    simp only [dirnameRef, if_neg hne, h1, h2]
    rw [if_neg (not_not_intro h3), if_neg (by simp), stripKeepFirst_concat_other _ _ hy]
  refine ⟨a1 ++ [y], b1 ++ [z], ?_, ?_, rfl, rfl, rfl⟩
  · have := bsd_dirname_fits PATH_MAX (some (a1 ++ [y] ++ '/' :: (b1 ++ [z])))
      (fun q hq => by rw [← Option.some.inj hq]; exact hn) (by rw [hdir]; exact hfa)
    rw [hdir] at this
    exact this
  · have := bsd_basename_fits PATH_MAX (some (a1 ++ [y] ++ '/' :: (b1 ++ [z])))
      (fun q hq => by rw [← Option.some.inj hq]; exact hn) (by rw [hbase]; exact hfb)
    rw [hbase] at this
    exact this

theorem dirname_slash_basename_witness :
    ∃ d c, bsd_dirname 4096 (some "/usr/lib".toList) = some d ∧
      bsd_basename 4096 (some "/usr/lib".toList) = some c ∧
      d ++ '/' :: c = "/usr/lib".toList ∧ d = "/usr".toList ∧ c = "lib".toList :=
  dirname_slash_basename 4096 "/usr/lib".toList "/usr".toList "lib".toList (by decide)
    (by simp) (by decide) (by decide) (by decide) (by decide) (by decide) (by decide)

/-! ## my_get_number: prefix letters, halves, long fractions, the byte flag -/

/-- The numeric part in front of any text that starts neither with a digit
nor with a point is read into `val`, `frac` and `fracdiv`, and the rest goes
to the unit part. -/
theorem my_get_number_numeric (ip : List Char) (fp : Option (List Char)) (suf : List Char)
    (b : Bool) (max : Dbl) (hip : ∀ c ∈ ip, isDigit c = true)
    (hfp : ∀ f, fp = some f → (∀ c ∈ f, isDigit c = true) ∧ f ≠ [])
    (hne : fp = none → ip ≠ []) (hnd : suf.takeWhile isDigit = [])
    (hnp : charAt suf 0 ≠ '.') :
    my_get_number (ip ++ (fracText fp ++ suf)) max b =
      finish (natOfDigits ip % 2 ^ 64) (fracValue fp % 2 ^ 64) (fracDivisor fp % 2 ^ 64)
        suf max b := by
  cases fp with
  | none =>
    have hi : ip ≠ [] := hne rfl
    have hflag : (!ip.isEmpty) = true := by
      cases ip with
      | nil => exact absurd rfl hi
      | cons c cs => rfl
    unfold my_get_number
    simp only [List.nil_append, fracValue, fracDivisor, fracText]
    rw [scanInt_append ip suf 0 false hip hnd]
    simp only [Bool.false_or, hflag]
    rw [if_neg hnp, if_neg (by simp), foldl_digits_natOfDigits]
    norm_num
  | some f =>
    obtain ⟨hf, hfne⟩ := hfp f rfl
    have hp : ('.' :: f ++ suf).takeWhile isDigit = [] := by
      rw [List.cons_append, List.takeWhile_cons_of_neg (by decide)]
    unfold my_get_number
    simp only [fracValue, fracDivisor, fracText]
    rw [scanInt_append ip ('.' :: f ++ suf) 0 false hip hp]
    simp only [List.cons_append, List.tail_cons]
    rw [if_pos (by simp [charAt]), scanFrac_append f suf 0 1 hf hnd]
    simp only []
    have h1 := foldl_fracdiv f 1
    have e1 : (1 : Nat) % 2 ^ 64 = 1 := by norm_num
    rw [e1] at h1
    have hne1 : ¬ List.foldl (fun d _ => d * 10 % 2 ^ 64) 1 f = 1 := by
      intro h
      have h2 := (scanFrac_div_eq_one (f ++ suf) 0).1 (by
        rw [scanFrac_append f suf 0 1 hf hnd]; exact h)
      rw [takeWhile_digits f suf hf hnd] at h2
      exact hfne h2
    rw [if_neg hne1, foldl_digits_natOfDigits, foldl_digits_natOfDigits, h1, Nat.one_mul]

theorem unitMult_letters (b : Bool) :
    unitMult ['K'] b = none ∧ unitMult ['k', 'i'] b = none ∧
      unitMult ['k'] b = some (Dbl.ofNat 1000) ∧ unitMult ['K', 'i'] b = some (Dbl.ofNat 1024) := by
  cases b <;> decide!

/-- C11: behind every valid numeric part, and with either flag, a bare `K`
and `ki` are malformed, `k` is accepted with the multiplier 1000 and `Ki`
with the multiplier 1024: the function compares
`round((frac / fracdiv + val) * mult)` with the ceiling and stores it, and
for a whole number `n` whose product is exact and within the ceiling the
result is `n * 1000` and `n * 1024`. -/
theorem case_asymmetry (ip : List Char) (fp : Option (List Char)) (bytesflag : Bool)
    (max : Dbl) (hip : ∀ c ∈ ip, isDigit c = true)
    (hfp : ∀ f, fp = some f → (∀ c ∈ f, isDigit c = true) ∧ f ≠ [])
    (hne : fp = none → ip ≠ []) :
    (my_get_number (numberText ip fp ['K'] false) max bytesflag).1 = -1 ∧
    (my_get_number (numberText ip fp ['k', 'i'] false) max bytesflag).1 = -1 ∧
    my_get_number (numberText ip fp ['k'] false) max bytesflag =
      (if Dbl.gt (drvalOf (natOfDigits ip % 2 ^ 64) (fracValue fp % 2 ^ 64)
          (fracDivisor fp % 2 ^ 64) (Dbl.ofNat 1000)) max = true then (-2, none)
       else (1, Dbl.toU64 (drvalOf (natOfDigits ip % 2 ^ 64) (fracValue fp % 2 ^ 64)
          (fracDivisor fp % 2 ^ 64) (Dbl.ofNat 1000)))) ∧
    my_get_number (numberText ip fp ['K', 'i'] false) max bytesflag =
      (if Dbl.gt (drvalOf (natOfDigits ip % 2 ^ 64) (fracValue fp % 2 ^ 64)
          (fracDivisor fp % 2 ^ 64) (Dbl.ofNat 1024)) max = true then (-2, none)
       else (1, Dbl.toU64 (drvalOf (natOfDigits ip % 2 ^ 64) (fracValue fp % 2 ^ 64)
          (fracDivisor fp % 2 ^ 64) (Dbl.ofNat 1024)))) ∧
    (fp = none → natOfDigits ip * 125 < 2 ^ 53 → Dbl.geNat max (natOfDigits ip * 1000) = true →
      my_get_number (numberText ip fp ['k'] false) max bytesflag
        = (1, some (natOfDigits ip * 1000))) ∧
    (fp = none → natOfDigits ip < 2 ^ 53 → Dbl.geNat max (natOfDigits ip * 1024) = true →
      my_get_number (numberText ip fp ['K', 'i'] false) max bytesflag
        = (1, some (natOfDigits ip * 1024))) := by
  obtain ⟨hK, hki, hk, hKi⟩ := unitMult_letters bytesflag
  have key : ∀ suf : List Char, suf.takeWhile isDigit = [] → charAt suf 0 ≠ '.' →
      my_get_number (numberText ip fp suf false) max bytesflag =
        finish (natOfDigits ip % 2 ^ 64) (fracValue fp % 2 ^ 64) (fracDivisor fp % 2 ^ 64)
          suf max bytesflag := by
    intro suf h1 h2
    have e : numberText ip fp suf false = ip ++ (fracText fp ++ suf) := by
      cases fp <;> simp [numberText, fracText]
    rw [e, my_get_number_numeric ip fp suf bytesflag max hip hfp hne h1 h2]
  refine ⟨?_, ?_, ?_, ?_, ?_, ?_⟩
  · rw [key ['K'] (by decide) (by decide)]
    simp [finish, hK]
  · rw [key ['k', 'i'] (by decide) (by decide)]
    simp [finish, hki]
  · rw [key ['k'] (by decide) (by decide)]
    simp only [finish, hk]
  · rw [key ['K', 'i'] (by decide) (by decide)]
    simp only [finish, hKi]
  · intro hnone hex hmax
    subst hnone
    have hu : ['k'] ∈ unitPrefixes := by decide
    have hm : prefixMultiplier ['k'] = 1000 := by decide
    have h5 : fivePart ['k'] = 125 := by decide
    obtain ⟨hn, _, hnm⟩ := exact_product (natOfDigits ip) ['k'] hu (by rw [h5]; exact hex)
    rw [whole_number_value ip ['k'] false bytesflag max (hne rfl) hip hu (by simp)
      (by omega) hn hnm, hm,
      if_neg (by rw [gt_false_of_geNat max _ hmax]; simp), toU64_exact _ (by omega)]
  · intro hnone hex hmax
    subst hnone
    have hu : ['K', 'i'] ∈ unitPrefixes := by decide
    have hm : prefixMultiplier ['K', 'i'] = 1024 := by decide
    have h5 : fivePart ['K', 'i'] = 1 := by decide
    obtain ⟨hn, _, hnm⟩ := exact_product (natOfDigits ip) ['K', 'i'] hu
      (by rw [h5, Nat.mul_one]; exact hex)
    rw [whole_number_value ip ['K', 'i'] false bytesflag max (hne rfl) hip hu (by simp)
      (by omega) hn hnm, hm,
      if_neg (by rw [gt_false_of_geNat max _ hmax]; simp), toU64_exact _ (by omega)]

theorem case_asymmetry_witness :
    ((my_get_number "1K".toList (Dbl.ofNat 5000) false).1 = -1 ∧
      (my_get_number "1ki".toList (Dbl.ofNat 5000) true).1 = -1) ∧
    (my_get_number "1k".toList (Dbl.ofNat 5000) false = (1, some 1000) ∧
      my_get_number "1Ki".toList (Dbl.ofNat 5000) true = (1, some 1024)) :=
  ⟨⟨(case_asymmetry "1".toList none false (Dbl.ofNat 5000) (by decide) (by simp) (by simp)).1,
    (case_asymmetry "1".toList none true (Dbl.ofNat 5000) (by decide) (by simp) (by simp)).2.1⟩,
   ⟨(case_asymmetry "1".toList none false (Dbl.ofNat 5000) (by decide) (by simp)
      (by simp)).2.2.2.2.1 rfl (by decide) (by decide!),
    (case_asymmetry "1".toList none true (Dbl.ofNat 5000) (by decide) (by simp)
      (by simp)).2.2.2.2.2 rfl (by decide) (by decide!)⟩⟩

theorem scale_eq_two_mul : scale = 2 * 2 ^ 1073 := by
  unfold scale
  rw [show (1074 : Nat) = 1073 + 1 from rfl, pow_succ, Nat.mul_comm]

theorem half_arith (S H n : Nat) (h : S = 2 * H) :
    5 * S * S = 10 * S * (1 * H) ∧ 1 * H + n * S = 1 * ((2 * n + 1) * H) ∧
      2 * ((2 * n + 1) * H) + S = 2 * S * (n + 1) := by
  subst h
  refine ⟨by ring, by ring, by ring⟩

theorem mul_pow_lt (m a b c : Nat) (hm : m < 2 ^ a) (h : a + b < c) : m * 2 ^ b < 2 ^ c :=
  calc m * 2 ^ b < 2 ^ a * 2 ^ b := Nat.mul_lt_mul_of_pos_right hm (by positivity)
    _ = 2 ^ (a + b) := (pow_add 2 a b).symm
    _ < 2 ^ c := Nat.pow_lt_pow_right (by decide) h

theorem half_lt_huge (m : Nat) (hm : m < 2 ^ 53) : m * 2 ^ 1073 < huge := by
  unfold huge
  exact mul_pow_lt m 53 1073 2098 hm (by decide)

/-- The value `round((5 / 10 + n) * 1)` for `n` below 2^52: every operation
is exact, and the half is rounded away from zero. -/
theorem drvalOf_half (n : Nat) (hn : n < 2 ^ 52) :
    drvalOf n 5 10 (Dbl.ofNat 1) = Dbl.fin false ((n + 1) * scale) := by
  have hs := scale_pos
  unfold drvalOf
  rw [ofNat_representable 5 (representable_of_lt 5 (by norm_num)),
    ofNat_representable 10 (representable_of_lt 10 (by norm_num)),
    ofNat_representable n (representable_of_lt n (lt_trans hn (by norm_num))),
    ofNat_representable 1 representable_one]
  have h1 : Dbl.div (Dbl.fin false (5 * scale)) (Dbl.fin false (10 * scale))
      = Dbl.fin false (1 * 2 ^ 1073) := by
    have h := rnd_exact false (10 * scale) 1 1073 (by omega) (by norm_num)
      (half_lt_huge 1 (by norm_num))
    have e : 5 * scale * scale = 10 * scale * (1 * 2 ^ 1073) :=
      (half_arith scale (2 ^ 1073) n scale_eq_two_mul).1
    simp only [Dbl.div, Bool.xor_false]
    rw [if_neg (by omega), e]
    exact h
  rw [h1]
  have h2 : Dbl.add (Dbl.fin false (1 * 2 ^ 1073)) (Dbl.fin false (n * scale))
      = Dbl.fin false ((2 * n + 1) * 2 ^ 1073) := by
    have h := rnd_exact false 1 (2 * n + 1) 1073 (by norm_num) (by omega)
      (half_lt_huge _ (by omega))
    have e : 1 * 2 ^ 1073 + n * scale = 1 * ((2 * n + 1) * 2 ^ 1073) :=
      (half_arith scale (2 ^ 1073) n scale_eq_two_mul).2.1
    simp only [Dbl.add, if_true]
    rw [e]
    exact h
  rw [h2]
  have h3 : Dbl.mul (Dbl.fin false ((2 * n + 1) * 2 ^ 1073)) (Dbl.fin false (1 * scale))
      = Dbl.fin false ((2 * n + 1) * 2 ^ 1073) := by
    have h := rnd_exact false scale (2 * n + 1) 1073 hs (by omega) (half_lt_huge _ (by omega))
    have e : (2 * n + 1) * 2 ^ 1073 * (1 * scale) = scale * ((2 * n + 1) * 2 ^ 1073) := by
      rw [Nat.one_mul, Nat.mul_comm]
    simp only [Dbl.mul, Bool.xor_false]
    rw [e]
    exact h
  rw [h3]
  simp only [Dbl.round]
  apply congrArg (Dbl.fin false)
  have e : 2 * ((2 * n + 1) * 2 ^ 1073) + scale = 2 * scale * (n + 1) :=
    (half_arith scale (2 ^ 1073) n scale_eq_two_mul).2.2
  rw [e, Nat.mul_div_cancel_left _ (by omega)]

/-- C12: a digit string (possibly empty) denoting a whole number `n` below
2^52, followed by ".5", parses to `n + 1` under every ceiling of at least
`n + 1`, with either flag. -/
theorem half_rounds_up (ds : List Char) (bytesflag : Bool) (max : Dbl)
    (hd : ∀ c ∈ ds, isDigit c = true) (hn : natOfDigits ds < 2 ^ 52)
    (hmax : Dbl.geNat max (natOfDigits ds + 1) = true) :
    my_get_number (ds ++ ['.', '5']) max bytesflag = (1, some (natOfDigits ds + 1)) := by
  have hu : ([] : List Char) ∈ unitPrefixes := by decide
  have hm : prefixMultiplier [] = 1 := by decide
  have e : ds ++ ['.', '5'] = numberText ds (some ['5']) [] false := by simp [numberText]
  have h5 : natOfDigits ['5'] % 2 ^ 64 = 5 := by decide
  rw [e, my_get_number_text ds (some ['5']) [] false bytesflag max hd
    (fun f hf => by rw [← Option.some.inj hf]; exact ⟨by decide, by simp⟩) (by simp) hu (by simp)]
  simp only [List.length_singleton, pow_one]
  rw [Nat.mod_eq_of_lt (lt_trans hn (by norm_num)), h5, finish_valid _ _ _ [] false bytesflag max
    hu (by simp), hm]
  have e10 : 10 % 2 ^ 64 = 10 := by norm_num
  rw [e10, drvalOf_half _ hn, if_neg (by rw [gt_false_of_geNat max _ hmax]; simp),
    toU64_exact _ (by omega)]

theorem half_rounds_up_witness :
    my_get_number ".5".toList (Dbl.ofNat 1) false = (1, some 1) ∧
      my_get_number "1.5k".toList (Dbl.ofNat 5000) false = (1, some 1500) ∧
      my_get_number "7.5".toList (Dbl.ofNat 8) true = (1, some 8) :=
  ⟨half_rounds_up [] false (Dbl.ofNat 1) (by simp) (by decide) (by decide!), by decide!,
    half_rounds_up "7".toList true (Dbl.ofNat 8) (by decide) (by decide) (by decide!)⟩

/-- C15 (failing input): behind "0." and 64 zeros the 64-bit accumulator
`fracdiv` holds `10 ^ 64 mod 2 ^ 64 = 0` when `frac` is divided by it; the
quotient 0 / 0 is NaN, and the function returns 1 with an undefined value.
Behind "0.5" and 63 zeros the quotient is infinite and the function returns
-2 under the ceiling 1000. -/
theorem fracdiv_wraps_to_zero :
    (scanFrac (List.replicate 64 '0') 0 1).2.1 = 0 ∧
      Dbl.div (Dbl.ofNat 0) (Dbl.ofNat 0) = Dbl.nan ∧
      my_get_number ("0.".toList ++ List.replicate 64 '0') (Dbl.ofNat 1000) false = (1, none) ∧
      (scanFrac ('5' :: List.replicate 63 '0') 0 1).2.1 = 0 ∧
      my_get_number ("0.5".toList ++ List.replicate 63 '0') (Dbl.ofNat 1000) false
        = (-2, none) := by
  decide!

theorem decimalMult_B : decimalMult 'B' = none := by decide

theorem binaryMult_B : binaryMult 'B' = none := by decide

/-- Whatever unit the function accepts without the byte flag it accepts, with
the same multiplier, under the byte flag. -/
theorem unitMult_mono (suf : List Char) (m : Dbl) (h : unitMult suf false = some m) :
    unitMult suf true = some m := by
  unfold unitMult at h ⊢
  generalize charAt suf 0 = c0 at h ⊢
  generalize charAt suf 1 = c1 at h ⊢
  generalize charAt suf 2 = c2 at h ⊢
  generalize charAt suf 3 = c3 at h ⊢
  have hBi : ('B' : Char) ≠ 'i' := by decide
  have hiB : ('i' : Char) ≠ 'B' := by decide
  split_ifs at h ⊢ <;>
    simp_all [decimalMult_B, binaryMult_B, NUL_ne_B, NUL_ne_i]

/-- A text that does not end in `B` gets the same unit under both flags. -/
theorem unitMult_flag (suf : List Char) (hn : NUL ∉ suf) (hB : suf.getLast? ≠ some 'B') :
    unitMult suf true = unitMult suf false := by
  match suf, hn, hB with
  | [], _, _ => simp [unitMult, charAt]
  | [x], hn, hB =>
    have hx : x ≠ NUL := fun h => hn (by simp [h])
    have hxB : x ≠ 'B' := fun h => hB (by simp [h])
    simp only [unitMult, charAt, List.getD_cons_zero, List.getD_cons_succ, List.getD_nil]
    split_ifs <;> simp_all [NUL_ne_B, NUL_ne_i]
  | [x, y], hn, hB =>
    have hx : x ≠ NUL := fun h => hn (by simp [h])
    have hy : y ≠ NUL := fun h => hn (by simp [h])
    have hyB : y ≠ 'B' := fun h => hB (by simp [h])
    simp only [unitMult, charAt, List.getD_cons_zero, List.getD_cons_succ, List.getD_nil]
    split_ifs <;> simp_all [NUL_ne_B, NUL_ne_i]
  | [x, y, z], hn, hB =>
    have hx : x ≠ NUL := fun h => hn (by simp [h])
    have hy : y ≠ NUL := fun h => hn (by simp [h])
    have hz : z ≠ NUL := fun h => hn (by simp [h])
    have hzB : z ≠ 'B' := fun h => hB (by simp [h])
    simp only [unitMult, charAt, List.getD_cons_zero, List.getD_cons_succ, List.getD_nil]
    split_ifs <;> simp_all [NUL_ne_B, NUL_ne_i]
  | x :: y :: z :: w :: r, hn, _ =>
    have hx : x ≠ NUL := fun h => hn (by simp [h])
    have hy : y ≠ NUL := fun h => hn (by simp [h])
    have hz : z ≠ NUL := fun h => hn (by simp [h])
    have hw : w ≠ NUL := fun h => hn (by simp [h])
    simp only [unitMult, charAt, List.getD_cons_zero, List.getD_cons_succ, List.getD_nil]
    split_ifs <;> simp_all [NUL_ne_B, NUL_ne_i]

theorem finish_flag (val frac fracdiv : Nat) (str : List Char) (max : Dbl) (b c : Bool)
    (h : unitMult str b = unitMult str c) :
    finish val frac fracdiv str max b = finish val frac fracdiv str max c := by
  unfold finish
  rw [h]

theorem getLast_of_suffix {r s : List Char} (hrs : r <:+ s) (hB : s.getLast? ≠ some 'B') :
    r.getLast? ≠ some 'B' := by
  by_cases hr : r = []
  · subst hr
    simp
  · obtain ⟨t, rfl⟩ := hrs
    rwa [List.getLast?_append_of_ne_nil _ hr] at hB

/-- C16: the byte flag only adds accepted inputs: whenever the function does
not return -1 with the flag off (a success in particular), it returns the same
code and value with the flag on; and a text that does not end in `B` gets the
same outcome under both flags. -/
theorem byte_flag_only_adds (str : List Char) (max : Dbl) :
    ((my_get_number str max false).1 ≠ -1 →
      my_get_number str max true = my_get_number str max false) ∧
    (NUL ∉ str → str.getLast? ≠ some 'B' →
      my_get_number str max true = my_get_number str max false) := by
  constructor
  · intro h
    unfold my_get_number at h ⊢
    by_cases hp : charAt (scanInt str 0 false).2.2 0 = '.'
    · simp only [if_pos hp] at h ⊢
      by_cases hd : (scanFrac (scanInt str 0 false).2.2.tail 0 1).2.1 = 1
      · simp only [if_pos hd] at h
        exact absurd rfl h
      · simp only [if_neg hd] at h ⊢
        have hs : (unitMult (scanFrac (scanInt str 0 false).2.2.tail 0 1).2.2 false).isSome
            = true := by
          by_contra hc
          exact h ((finish_malformed _ _ _ _ max false).2 (by simpa using hc))
        obtain ⟨m, hm⟩ := Option.isSome_iff_exists.1 hs
        exact finish_flag _ _ _ _ max true false (by rw [hm, unitMult_mono _ m hm])
    · simp only [if_neg hp] at h ⊢
      by_cases hf : (scanInt str 0 false).2.1 = false
      · simp only [if_pos hf] at h
        exact absurd rfl h
      · simp only [if_neg hf] at h ⊢
        have hs : (unitMult (scanInt str 0 false).2.2 false).isSome = true := by
          by_contra hc
          exact h ((finish_malformed _ _ _ _ max false).2 (by simpa using hc))
        obtain ⟨m, hm⟩ := Option.isSome_iff_exists.1 hs
        exact finish_flag _ _ _ _ max true false (by rw [hm, unitMult_mono _ m hm])
  · intro hn hB
    have h1 : (str.dropWhile isDigit) <:+ str := List.dropWhile_suffix isDigit
    have h2 : ((str.dropWhile isDigit).tail.dropWhile isDigit) <:+ str :=
      ((List.dropWhile_suffix isDigit).trans (List.tail_suffix _)).trans h1
    unfold my_get_number
    simp only [scanInt_rest, scanFrac_rest]
    rw [finish_flag _ _ _ (str.dropWhile isDigit) max true false
        (unitMult_flag _ (fun h => hn (h1.subset h)) (getLast_of_suffix h1 hB)),
      finish_flag _ _ _ ((str.dropWhile isDigit).tail.dropWhile isDigit) max true false
        (unitMult_flag _ (fun h => hn (h2.subset h)) (getLast_of_suffix h2 hB))]

theorem byte_flag_only_adds_witness :
    my_get_number "1.5Ki".toList (Dbl.ofNat 5000) true
        = my_get_number "1.5Ki".toList (Dbl.ofNat 5000) false ∧
      my_get_number "12x".toList (Dbl.ofNat 5000) true
        = my_get_number "12x".toList (Dbl.ofNat 5000) false :=
  ⟨(byte_flag_only_adds "1.5Ki".toList (Dbl.ofNat 5000)).1 (by decide!),
    (byte_flag_only_adds "12x".toList (Dbl.ofNat 5000)).2 (by decide) (by decide)⟩

end LizardTools
